import Mathlib

/-!
Verification of the address-translation and tree-search core of a btrfs
introspection tool, shallowly embedded from the Rust sources under src/.

Conventions of the embedding:
* machine integers (u8/u16/u32/u64/usize) become Nat; the modelled code paths
  never exercise two's-complement wrap-around, and every place where the Rust
  code can panic (assertion failure, underflow, division by zero) is modelled
  as an explicit crash outcome;
* fallible operations (anyhow::Result) return an explicit result type RRes
  with ok / err / crash alternatives, where crash models a Rust panic and err
  models a returned Err;
* Rust iterators with a cursor index become structures holding the underlying
  list together with the cursor, and loops become fuelled recursion where the
  source loop has no structural bound.
-/

namespace DumpBtrfs

/-- Crash alternatives: each constructor corresponds to one panic site of the
source (assertion failures, arithmetic faults, unsupported checksum type). -/
inductive CrashKind where
  | modZero        -- remainder with a zero divisor
  | alignAssert    -- assert_eq in load_virt_block on nodesize alignment
  | sizeAssert     -- assert_eq on chunk item size in address.rs
  | sliceBounds    -- assert_le in MappedFile::slice
  | subUnderflow   -- u64/usize subtraction underflow
  | sysChunkAssert -- assert_eq in SysChunkIter::next / dump_chunks
  | unsupportedCsum -- panic in csum_data for non-CRC32 algorithms
  | minMaxAssert   -- assert_ne in BtrfsTreeIter::new
  deriving DecidableEq

/-- Error alternatives for anyhow::Result errors the modelled code returns. -/
inductive ErrKind where
  | ioErr          -- File::open / read_exact failure
  | badMagic       -- invalid magic in block
  | badCsum        -- invalid checksum in superblock
  | noStripeDevice -- no device containing stripe copy is present
  | notFound       -- virt address not found among available chunks/devices
  deriving DecidableEq

/-- Result of a modelled Rust function: Ok value, returned Err, or panic. -/
inductive RRes (α : Type) where
  | ok (val : α)
  | err (e : ErrKind)
  | crash (c : CrashKind)
  deriving DecidableEq

/-! ## Keys and their ordering (src/structures.rs, src/tree.rs lines 22-38) -/

/-- On-disk key triple; item_type is the numeric byte value of the tag. -/
structure btrfs_disk_key where
  objectid : Nat
  item_type : Nat
  offset : Nat
  deriving DecidableEq

/-- Direct translation of cmp_key (src/tree.rs lines 22-38). -/
def cmp_key (left right : btrfs_disk_key) : Ordering :=
  if left.objectid < right.objectid then .lt
  else if left.objectid > right.objectid then .gt
  else if left.item_type < right.item_type then .lt
  else if left.item_type > right.item_type then .gt
  else if left.offset < right.offset then .lt
  else if left.offset > right.offset then .gt
  else .eq

/-! ## Checksum engine (src/btrfs.rs lines 158-174)

crc32c realises CRC-32/ISCSI (Castagnoli) exactly as the crc crate computes
it for CRC_32_ISCSI: reflected algorithm, init 0xFFFFFFFF, reflected
polynomial 0x82F63B78, xorout 0xFFFFFFFF.  The crate precomputes a 256-entry
table with the 8-step bit loop and then folds bytes through table lookups;
crc32cBits is that table generator and crc32cByte the per-byte fold. -/

/-- The reflected CRC-32C bit loop: n division steps on the accumulator. -/
def crc32cBits : Nat → Nat → Nat
  | crc, 0 => crc
  | crc, n + 1 =>
      crc32cBits (if crc % 2 == 1 then Nat.xor (crc / 2) 0x82F63B78 else crc / 2) n

/-- Fold one byte into the CRC accumulator (table-driven step of the crc
crate: crc := table[(crc ^^^ b) and 0xFF] ^^^ ((crc ^^^ b) >>> 8)). -/
def crc32cByte (crc b : Nat) : Nat :=
  Nat.xor (Nat.xor crc b / 256) (crc32cBits (Nat.xor crc b % 256) 8)

/-- CRC-32C of a byte list. -/
def crc32c (buf : List Nat) : Nat :=
  Nat.xor (buf.foldl crc32cByte 0xFFFFFFFF) 0xFFFFFFFF

/-- Accumulator fold of crc32cByte over the byte function f at offsets
lo, lo+1, ....  Written with a bare Nat.rec and a forcing conditional so
kernel reduction of concrete instances runs in constant stack space; the
conditional has identical branches and is semantically transparent. -/
def crcF (f : Nat → Nat) (n : Nat) : Nat → Nat → Nat :=
  Nat.rec (motive := fun _ => Nat → Nat → Nat)
    (fun acc _ => acc)
    (fun _ ih acc lo =>
      let a := crc32cByte acc (f lo)
      if a = a then ih a (lo + 1) else ih a (lo + 1))
    n

/-- CRC-32C of the n bytes f lo, f (lo+1), ..., f (lo+n-1). -/
def crc32cRange (f : Nat → Nat) (lo n : Nat) : Nat :=
  Nat.xor (crcF f n 0xFFFFFFFF lo) 0xFFFFFFFF

def BTRFS_CSUM_SIZE : Nat := 32

/-- Little-endian serialization of v into n bytes. -/
def leBytes : Nat → Nat → List Nat
  | 0, _ => []
  | n + 1, v => (v % 256) :: leBytes n (v / 256)

/-- Model of csum_data_crc32 (src/btrfs.rs lines 166-174): the 4 CRC bytes
placed little-endian at the front of a 32-byte zero buffer. -/
def csum_data_crc32 (buf : List Nat) : List Nat :=
  leBytes 4 (crc32c buf) ++ List.replicate (BTRFS_CSUM_SIZE - 4) 0

/-- Model of csum_data (src/btrfs.rs lines 159-164): checksum type 0 is
CRC32; every other type panics. -/
def csum_data (buf : List Nat) (csum_type : Nat) : RRes (List Nat) :=
  if csum_type = 0 then .ok (csum_data_crc32 buf) else .crash .unsupportedCsum

/-- Range-based form of csum_data_crc32 used where the buffer lives behind a
byte function; csum_data_range_eq proves it agrees with the list form. -/
def csum_data_range (f : Nat → Nat) (lo n : Nat) : List Nat :=
  leBytes 4 (crc32cRange f lo n) ++ List.replicate (BTRFS_CSUM_SIZE - 4) 0

/-! ## Mapped device (src/mapped_file.rs) -/

/-- A mapped device: a byte length and the byte content at every offset. -/
structure Device where
  size : Nat
  byte : Nat → Nat

/-- Condition under which MappedFile::at::<T> panics (src/mapped_file.rs
lines 60-65): the source tests len - size_of T <= offset.  Nat subtraction
truncates at zero exactly where the Rust usize subtraction would panic in a
debug build, and in both cases the call does not return normally, so the
Bool below is the faithful panic condition for size_of T <= len. -/
def mappedFileAtCrashes (len tsize offset : Nat) : Bool :=
  len - tsize ≤ offset

/-- Model of MappedFile::slice (src/mapped_file.rs lines 68-76): assert_le
then the byte range. -/
def MappedFile_slice (dev : Device) (offset length : Nat) : RRes (List Nat) :=
  if offset + length ≤ dev.size then
    .ok ((List.range length).map (fun i => dev.byte (offset + i)))
  else .crash .sliceBounds

/-- Plain read of length bytes at offset, the observation used to state what
a returned (device, offset) pair denotes. -/
def devRead (dev : Device) (offset length : Nat) : List Nat :=
  (List.range length).map (fun i => dev.byte (offset + i))

/-! ## On-disk constants (src/structures.rs) -/

def BTRFS_SUPER_INFO_OFFSET : Nat := 65536
def BTRFS_SUPER_INFO_SIZE : Nat := 4096
def BTRFS_MAGIC : Nat := 0x4D5F53665248425F
def BTRFS_SYSTEM_CHUNK_ARRAY_SIZE : Nat := 2048
def BTRFS_FIRST_CHUNK_TREE_OBJECTID : Nat := 256
/-- Numeric value of BtrfsItemType::CHUNK_ITEM. -/
def CHUNK_ITEM : Nat := 0xe4
/-- Numeric value of BtrfsItemType::ROOT_ITEM. -/
def ROOT_ITEM : Nat := 0x84

/-- Little-endian read of n bytes starting at index off of byte function f. -/
def leVal (f : Nat → Nat) (off : Nat) : Nat → Nat
  | 0 => 0
  | n + 1 => f off + 256 * leVal f (off + 1) n

/-- Little-endian read of n bytes starting at index off of a byte list
(indices past the end read as zero, standing for adjacent mapped memory). -/
def leList (l : List Nat) (off : Nat) : Nat → Nat
  | 0 => 0
  | n + 1 => l.getD off 0 + 256 * leList l (off + 1) n

/-! ## On-disk records (src/structures.rs) -/

/-- Fields of btrfs_stripe (src/structures.rs lines 260-265). -/
structure btrfs_stripe where
  devid : Nat
  offset : Nat
  dev_uuid : List Nat
  deriving DecidableEq

/-- Fields of btrfs_chunk (src/structures.rs lines 267-278); the record is
48 bytes and contains no inline stripe. -/
structure btrfs_chunk where
  length : Nat
  owner : Nat
  stripe_len : Nat
  chunk_type : Nat
  io_align : Nat
  io_width : Nat
  sector_size : Nat
  num_stripes : Nat
  sub_stripes : Nat
  deriving DecidableEq

/-- Byte size of btrfs_disk_key / btrfs_chunk / btrfs_stripe. -/
def SIZE_DISK_KEY : Nat := 17
def SIZE_CHUNK : Nat := 48
def SIZE_STRIPE : Nat := 32

/-- Decode a btrfs_disk_key from 17 bytes at off of byte function a. -/
def parseKeyF (a : Nat → Nat) (off : Nat) : btrfs_disk_key :=
  { objectid := leVal a off 8, item_type := a (off + 8), offset := leVal a (off + 9) 8 }

/-- Decode a btrfs_chunk from 48 bytes at off of byte function a. -/
def parseChunkF (a : Nat → Nat) (off : Nat) : btrfs_chunk :=
  { length := leVal a off 8
    owner := leVal a (off + 8) 8
    stripe_len := leVal a (off + 16) 8
    chunk_type := leVal a (off + 24) 8
    io_align := leVal a (off + 32) 4
    io_width := leVal a (off + 36) 4
    sector_size := leVal a (off + 40) 4
    num_stripes := leVal a (off + 44) 2
    sub_stripes := leVal a (off + 46) 2 }

/-- Decode a btrfs_stripe from 32 bytes at off of byte function a. -/
def parseStripeF (a : Nat → Nat) (off : Nat) : btrfs_stripe :=
  { devid := leVal a off 8
    offset := leVal a (off + 8) 8
    dev_uuid := (List.range 16).map (fun i => a (off + 16 + i)) }

/-- ChunkInfo (src/btrfs.rs line 193): the key, the chunk header and the
stripe vector the system-chunk-array iterator produced for one record. -/
structure ChunkInfo where
  key : btrfs_disk_key
  chunk : btrfs_chunk
  stripes : List btrfs_stripe
  deriving DecidableEq

/-! ## Superblock (src/structures.rs lines 116-155, parsed fields only)

Field byte offsets inside the packed 4096-byte record: csum at 0, fsid at
32, bytenr 48, flags 56, magic 64, generation 72, root 80, chunk_root 88,
log_root 96, unused 104, total_bytes 112, bytes_used 120,
root_dir_object_id 128, num_devices 136, sectorsize 144, nodesize 148,
unused_leafsize 152, stripesize 156, sys_chunk_array_size 160,
chunk_root_generation 164, compat 172..196, csum_type 196, levels 198..201,
dev_item 201, label 299, more fields 555..811, sys_chunk_array 811. -/
structure btrfs_super_block where
  csum : List Nat
  magic : Nat
  generation : Nat
  root : Nat
  chunk_root : Nat
  total_bytes : Nat
  num_devices : Nat
  sectorsize : Nat
  nodesize : Nat
  stripesize : Nat
  sys_chunk_array_size : Nat
  csum_type : Nat
  sys_chunk_array : List Nat
  deriving DecidableEq

/-- Decode the superblock fields from its 4096 bytes (byte function f). -/
def parseSb (f : Nat → Nat) : btrfs_super_block :=
  { csum := (List.range 32).map f
    magic := leVal f 64 8
    generation := leVal f 72 8
    root := leVal f 80 8
    chunk_root := leVal f 88 8
    total_bytes := leVal f 112 8
    num_devices := leVal f 136 8
    sectorsize := leVal f 144 4
    nodesize := leVal f 148 4
    stripesize := leVal f 156 4
    sys_chunk_array_size := leVal f 160 4
    csum_type := leVal f 196 2
    sys_chunk_array := (List.range BTRFS_SYSTEM_CHUNK_ARRAY_SIZE).map (fun i => f (811 + i)) }

/-! ## System chunk array iterator (src/btrfs.rs lines 63-108) -/

/-- One step of SysChunkIter::next given the array byte function a, the
declared array size and the cursor position.  done models returning None
(including the silent None when a Cursor read_exact fails at the 2048-byte
end of sys_chunk_array); crashStep models the panics of the assert_eq
and of the zero-divisor remainder it computes when position is 0. -/
inductive SysStep where
  | done
  | crashStep (c : CrashKind)
  | item (ci : ChunkInfo) (newPos : Nat)
  deriving DecidableEq

/-- Read the extra stripes: the source loop for _ in 1..num_stripes reads
num_stripes - 1 stripe records of 32 bytes each. -/
def readStripes (a : Nat → Nat) (pos : Nat) : Nat → List btrfs_stripe
  | 0 => []
  | k + 1 => parseStripeF a pos :: readStripes a (pos + SIZE_STRIPE) k

/-- Direct translation of SysChunkIter::next (src/btrfs.rs lines 80-108). -/
def sysChunkNext (a : Nat → Nat) (size pos : Nat) : SysStep :=
  if pos ≥ size then
    if pos = 0 then .crashStep .modZero
    else if size % pos ≠ 0 then .crashStep .sysChunkAssert
    else .done
  else if pos + SIZE_DISK_KEY > BTRFS_SYSTEM_CHUNK_ARRAY_SIZE then .done
  else
    let key := parseKeyF a pos
    if pos + SIZE_DISK_KEY + SIZE_CHUNK > BTRFS_SYSTEM_CHUNK_ARRAY_SIZE then .done
    else
      let chunk := parseChunkF a (pos + SIZE_DISK_KEY)
      let ns := chunk.num_stripes - 1
      if pos + SIZE_DISK_KEY + SIZE_CHUNK + ns * SIZE_STRIPE >
          BTRFS_SYSTEM_CHUNK_ARRAY_SIZE then .done
      else
        .item ⟨key, chunk, readStripes a (pos + SIZE_DISK_KEY + SIZE_CHUNK) ns⟩
          (pos + SIZE_DISK_KEY + SIZE_CHUNK + ns * SIZE_STRIPE)

/-- Outcome of draining SysChunkIter. -/
inductive SysOut where
  | items (l : List ChunkInfo)
  | crash (c : CrashKind)
  deriving DecidableEq

/-- Drain SysChunkIter from position pos; fuel bounds the record count (each
record is at least 65 bytes of the 2048-byte array, so 64 always suffices). -/
def sysChunkListFrom (a : Nat → Nat) (size : Nat) : Nat → Nat → SysOut
  | 0, _ => .items []
  | fuel + 1, pos =>
      match sysChunkNext a size pos with
      | .done => .items []
      | .crashStep c => .crash c
      | .item ci newPos =>
          match sysChunkListFrom a size fuel newPos with
          | .items l => .items (ci :: l)
          | .crash c => .crash c

/-- All records SysChunkIter yields for a superblock, or the crash it hits. -/
def sysChunkList (sb : btrfs_super_block) : SysOut :=
  sysChunkListFrom (fun i => sb.sys_chunk_array.getD i 0) sb.sys_chunk_array_size 64 0

/-- Fused iteration of dump_chunks (src/btrfs.rs lines 111-134): pull records
in order and apply its per-record assert_eq checks (item_type CHUNK_ITEM,
objectid FIRST_CHUNK_TREE_OBJECTID, key offset equal to chunk_root), giving
the first crash or none. -/
def dumpChunksLoop (a : Nat → Nat) (size chunk_root : Nat) : Nat → Nat → Option CrashKind
  | 0, _ => none
  | fuel + 1, pos =>
      match sysChunkNext a size pos with
      | .done => none
      | .crashStep c => some c
      | .item ci newPos =>
          if ci.key.item_type ≠ CHUNK_ITEM then some .sysChunkAssert
          else if ci.key.objectid ≠ BTRFS_FIRST_CHUNK_TREE_OBJECTID then some .sysChunkAssert
          else if ci.key.offset ≠ chunk_root then some .sysChunkAssert
          else dumpChunksLoop a size chunk_root fuel newPos

/-- dump_chunks on a superblock: the crash it hits, if any. -/
def dumpChunks (sb : btrfs_super_block) : Option CrashKind :=
  dumpChunksLoop (fun i => sb.sys_chunk_array.getD i 0) sb.sys_chunk_array_size
    sb.chunk_root 64 0

/-! ## Superblock loader (src/btrfs.rs lines 32-61) -/

/-- Body of load_sb reading the 4096-byte superblock region at offset off of
the device: read_exact, magic check, checksum check with the embedded
checksum type (csum_data panics on types other than CRC32), then the
dump_chunks call the source performs before returning Ok.  The source
hardcodes off = BTRFS_SUPER_INFO_OFFSET; the offset is a parameter here so
that the content of other candidate superblock locations can be stated. -/
def loadSbAt (dev : Device) (off : Nat) : RRes btrfs_super_block :=
  if off + BTRFS_SUPER_INFO_SIZE > dev.size then .err .ioErr
  else if (parseSb (fun i => dev.byte (off + i))).magic ≠ BTRFS_MAGIC then .err .badMagic
  else if (parseSb (fun i => dev.byte (off + i))).csum_type ≠ 0 then
    .crash .unsupportedCsum
  else if csum_data_range (fun i => dev.byte (off + i)) BTRFS_CSUM_SIZE
      (BTRFS_SUPER_INFO_SIZE - BTRFS_CSUM_SIZE) ≠
      (parseSb (fun i => dev.byte (off + i))).csum then .err .badCsum
  else
    match dumpChunks (parseSb (fun i => dev.byte (off + i))) with
    | some c => .crash c
    | none => .ok (parseSb (fun i => dev.byte (off + i)))

/-- Direct translation of load_sb (src/btrfs.rs lines 32-61): it reads the
primary superblock location only. -/
def load_sb (dev : Device) : RRes btrfs_super_block :=
  loadSbAt dev BTRFS_SUPER_INFO_OFFSET

/-! ## Tree blocks and node views (src/structures.rs, src/btrfs_node.rs)

A tree block is read by load_virt_block and then reinterpreted in place as a
header followed by key pointers (internal node) or items plus a data region
(leaf).  The embedding keeps that decoded view: FsInfo.nodes gives, for a
virtual block address, the decoded content of the nodesize block there; a
leaf item carries its metadata together with the data slice
block[header_size + offset .. header_size + offset + size] it denotes. -/

/-- Fields of btrfs_key_ptr (src/structures.rs lines 236-241). -/
structure btrfs_key_ptr where
  key : btrfs_disk_key
  blockptr : Nat
  generation : Nat
  deriving DecidableEq

/-- Fields of btrfs_item (src/structures.rs lines 228-233). -/
structure btrfs_item where
  key : btrfs_disk_key
  offset : Nat
  size : Nat
  deriving DecidableEq

/-- A leaf item of a block: its metadata and its decoded data slice. -/
structure LeafItem where
  item : btrfs_item
  data : List Nat
  deriving DecidableEq

/-- Decoded content of one nodesize tree block: header level plus either the
key-pointer records (level > 0) or the item records (level 0). -/
inductive NodeBlock where
  | internal (level : Nat) (key_ptrs : List btrfs_key_ptr)
  | leaf (items : List LeafItem)
  deriving DecidableEq

/-- The header level of a block. -/
def NodeBlock.level : NodeBlock → Nat
  | .internal l _ => l
  | .leaf _ => 0

/-- The key-pointer records the internal view of a block exposes. -/
def NodeBlock.keyPtrs : NodeBlock → List btrfs_key_ptr
  | .internal _ k => k
  | .leaf _ => []

/-- The item records the leaf view of a block exposes. -/
def NodeBlock.leafItems : NodeBlock → List LeafItem
  | .internal _ _ => []
  | .leaf its => its

/-- BtrfsInternalNodeIter (src/btrfs_node.rs lines 75-147): block slice view
plus cursor. -/
structure BtrfsInternalNodeIter where
  block : NodeBlock
  block_offset : Nat
  cur_item : Nat
  deriving DecidableEq

/-- BtrfsLeafNodeIter (src/btrfs_node.rs lines 5-73). -/
structure BtrfsLeafNodeIter where
  block : NodeBlock
  block_offset : Nat
  cur_item : Nat
  deriving DecidableEq

/-- The tuple a leaf iterator yields: item metadata, the data slice, the
containing block virtual address, the item index in its leaf. -/
structure LeafYield where
  item : btrfs_item
  data : List Nat
  block_offset : Nat
  index : Nat
  deriving DecidableEq

/-- BtrfsLeafNodeIter::peek. -/
def leafPeek (it : BtrfsLeafNodeIter) : Option LeafYield :=
  match it.block.leafItems.get? it.cur_item with
  | none => none
  | some li => some ⟨li.item, li.data, it.block_offset, it.cur_item⟩

/-- BtrfsLeafNodeIter::next. -/
def leafNext (it : BtrfsLeafNodeIter) : Option (LeafYield × BtrfsLeafNodeIter) :=
  match leafPeek it with
  | none => none
  | some y => some (y, { it with cur_item := it.cur_item + 1 })

/-- BtrfsInternalNodeIter::peek. -/
def internalPeek (it : BtrfsInternalNodeIter) : Option btrfs_key_ptr :=
  it.block.keyPtrs.get? it.cur_item

/-- BtrfsInternalNodeIter::next. -/
def internalNext (it : BtrfsInternalNodeIter) :
    Option (btrfs_key_ptr × BtrfsInternalNodeIter) :=
  match internalPeek it with
  | none => none
  | some kp => some (kp, { it with cur_item := it.cur_item + 1 })

/-- BtrfsInternalNodeIter::as_leaf_node: reinterpret at the block origin,
resetting iteration progress. -/
def asLeafNode (it : BtrfsInternalNodeIter) : BtrfsLeafNodeIter :=
  { block := it.block, block_offset := it.block_offset, cur_item := 0 }

/-- DeviceInfo (src/btrfs.rs lines 186-191); the path is abstracted to an
identifier. -/
structure DeviceInfo where
  path : Nat
  file : Device
  devid : Nat

/-- FsInfo (src/btrfs.rs lines 196-202) restricted to the fields the
modelled core reads, together with the decoded-block view nodes of the
virtual address space (what btrfs_node.rs produces from load_virt_block
output for addresses holding tree blocks). -/
structure FsInfo where
  devid_map : List (Nat × DeviceInfo)
  master_sb : btrfs_super_block
  bootstrap_chunks : List ChunkInfo
  nodes : Nat → Option NodeBlock

/-- HashMap::get on the devid map. -/
def devidGet (m : List (Nat × DeviceInfo)) (id : Nat) : Option DeviceInfo :=
  (m.find? (fun p => p.1 == id)).map (fun p => p.2)

/-- btrfs_internal_node (src/btrfs_node.rs lines 104-114): fetch the block at
a virtual address and view it as an internal node; none models the error of
load_virt_block, which callers discard with .ok()?. -/
def btrfs_internal_node (fs : FsInfo) (block_offset : Nat) :
    Option BtrfsInternalNodeIter :=
  (fs.nodes block_offset).map (fun b => ⟨b, block_offset, 0⟩)

/-! ## Tree search and iteration (src/tree.rs) -/

/-- NodeSearchOption (src/tree.rs lines 10-20). -/
structure NodeSearchOption where
  min_key : btrfs_disk_key
  max_key : btrfs_disk_key
  min_match : Ordering
  max_match : Ordering
  deriving DecidableEq

/-- Outcome of one pass of the entry loop inside find_key over an internal
node: descend into a child (carrying the advanced parent iterator to push),
abandon the search because the node is beyond the range, or run out of
entries (on which the source while-loop spins forever; the model's callers
map it to a failed search). -/
inductive ScanRes where
  | descend (it : BtrfsInternalNodeIter) (child : Nat)
  | outOfRange
  | exhausted
  deriving DecidableEq

/-- Entries remaining ahead of an internal iterator cursor. -/
def internalRemaining (it : BtrfsInternalNodeIter) : Nat :=
  it.block.keyPtrs.length - it.cur_item

/-- Items remaining ahead of a leaf iterator cursor. -/
def leafRemaining (it : BtrfsLeafNodeIter) : Nat :=
  it.block.leafItems.length - it.cur_item

/-- The inner entry loop of find_key (src/tree.rs lines 95-161), recursing on
the count of remaining entries. -/
def findKeyScan (opts : NodeSearchOption) : Nat → BtrfsInternalNodeIter → ScanRes
  | 0, _ => .exhausted
  | n + 1, it =>
      match internalNext it with
      | none => .exhausted
      | some (lk, it') =>
          match cmp_key lk.key opts.min_key with
          | .gt =>
              match cmp_key lk.key opts.max_key with
              | .gt => .outOfRange
              | _ => .descend it' lk.blockptr
          | .eq => .descend it' lk.blockptr
          | .lt =>
              match internalPeek it' with
              | none => .descend it' lk.blockptr
              | some rk =>
                  if cmp_key rk.key opts.min_key = .gt then .descend it' lk.blockptr
                  else findKeyScan opts n it'

/-- The level-descent loop of find_key (src/tree.rs lines 87-162).  fuel
bounds the descent depth; an empty internal node, on which the source loops
forever, yields none. -/
def findKeyLoop (fs : FsInfo) (opts : NodeSearchOption) :
    Nat → List BtrfsInternalNodeIter → BtrfsInternalNodeIter →
    Option (List BtrfsInternalNodeIter × BtrfsLeafNodeIter)
  | 0, _, _ => none
  | fuel + 1, stack, it =>
      if it.block.level ≠ 0 then
        match findKeyScan opts (internalRemaining it) it with
        | .outOfRange => none
        | .exhausted => none
        | .descend it' child =>
            match btrfs_internal_node fs child with
            | none => none
            | some nit => findKeyLoop fs opts fuel (it' :: stack) nit
      else some (stack, asLeafNode it)

/-- find_key (src/tree.rs lines 80-167).  The stack is a Rust Vec pushed and
popped at the back; the model keeps the top at the list head. -/
def find_key (fs : FsInfo) (opts : NodeSearchOption) (root fuel : Nat) :
    Option (List BtrfsInternalNodeIter × BtrfsLeafNodeIter) :=
  match btrfs_internal_node fs root with
  | none => none
  | some it => findKeyLoop fs opts fuel [] it

/-- Outcome of the item loop at the top of BtrfsTreeIter::next. -/
inductive LeafScanRes where
  | yieldRes (y : LeafYield) (it : BtrfsLeafNodeIter)
  | exhaust
  | stopScan
  deriving DecidableEq

/-- The leaf item loop of BtrfsTreeIter::next (src/tree.rs lines 191-232),
recursing on the count of remaining items. -/
def leafScanLoop (opts : NodeSearchOption) : Nat → BtrfsLeafNodeIter → LeafScanRes
  | 0, _ => .exhaust
  | n + 1, it =>
      match leafNext it with
      | none => .exhaust
      | some (ll, it') =>
          match cmp_key ll.item.key opts.min_key with
          | .gt =>
              match cmp_key ll.item.key opts.max_key with
              | .gt => .stopScan
              | _ => .yieldRes ll it'
          | .eq => .yieldRes ll it'
          | .lt =>
              match leafPeek it' with
              | none => .yieldRes ll it'
              | some rl =>
                  if cmp_key rl.item.key opts.min_key = .gt then .yieldRes ll it'
                  else leafScanLoop opts n it'

/-- The stack-pop loop of BtrfsTreeIter::next (src/tree.rs lines 238-246):
pop until a parent with an unconsumed next child remains. -/
def popToParent : List BtrfsInternalNodeIter →
    Option (BtrfsInternalNodeIter × List BtrfsInternalNodeIter)
  | [] => none
  | top :: rest =>
      if (internalPeek top).isSome then some (top, rest) else popToParent rest

/-- The leftmost re-descent loop of BtrfsTreeIter::next (src/tree.rs lines
254-259). -/
def descendLeftmost (fs : FsInfo) :
    Nat → List BtrfsInternalNodeIter → BtrfsInternalNodeIter →
    Option (List BtrfsInternalNodeIter × BtrfsLeafNodeIter)
  | 0, _, _ => none
  | fuel + 1, stack, it =>
      if it.block.level ≠ 0 then
        match internalNext it with
        | none => none
        | some (child, it') =>
            match btrfs_internal_node fs child.blockptr with
            | none => none
            | some nit => descendLeftmost fs fuel (it' :: stack) nit
      else some (stack, asLeafNode it)

/-- BtrfsTreeIter (src/tree.rs lines 40-52); fs is passed to the stepping
functions instead of being stored. -/
structure BtrfsTreeIter where
  root : Nat
  options : NodeSearchOption
  cur_leaf_node : Option BtrfsLeafNodeIter
  internal_node_stack : List BtrfsInternalNodeIter
  deriving DecidableEq

/-- BtrfsTreeIter::new without its assert (the assert is newIterChecked). -/
def BtrfsTreeIter.mk0 (root : Nat) (opts : NodeSearchOption) : BtrfsTreeIter :=
  { root := root, options := opts, cur_leaf_node := none, internal_node_stack := [] }

/-- BtrfsTreeIter::new (src/tree.rs lines 55-77) including its assert_ne
that min_key is not greater than max_key; none models that panic. -/
def newIterChecked (root : Nat) (opts : NodeSearchOption) : Option BtrfsTreeIter :=
  if cmp_key opts.min_key opts.max_key = .gt then none
  else some (BtrfsTreeIter.mk0 root opts)

/-- BtrfsTreeIter::next (src/tree.rs lines 180-265).  fuel bounds the
trailing tail-recursion (one unit per leaf change) and the descent loops. -/
def treeIterNext (fs : FsInfo) : Nat → BtrfsTreeIter → Option (LeafYield × BtrfsTreeIter)
  | 0, _ => none
  | fuel + 1, st =>
      let st1? : Option BtrfsTreeIter :=
        match st.cur_leaf_node with
        | some _ => some st
        | none =>
            match find_key fs st.options st.root (fuel + 1) with
            | none => none
            | some (path, leaf) =>
                some { st with cur_leaf_node := some leaf, internal_node_stack := path }
      match st1? with
      | none => none
      | some st1 =>
          match st1.cur_leaf_node with
          | none => none
          | some ln =>
              match leafScanLoop st1.options (leafRemaining ln) ln with
              | .yieldRes y ln' => some (y, { st1 with cur_leaf_node := some ln' })
              | .stopScan => none
              | .exhaust =>
                  match popToParent st1.internal_node_stack with
                  | none => none
                  | some (top, rest) =>
                      match descendLeftmost fs (fuel + 1) rest top with
                      | none => none
                      | some (stack', leaf') =>
                          treeIterNext fs fuel
                            { st1 with cur_leaf_node := some leaf',
                                       internal_node_stack := stack' }

/-- Drain the iterator: the full yield sequence of a for loop over it. -/
def iterToList (fs : FsInfo) : Nat → BtrfsTreeIter → List LeafYield
  | 0, _ => []
  | fuel + 1, st =>
      match treeIterNext fs (fuel + 1) st with
      | none => []
      | some (y, st') => y :: iterToList fs fuel st'

/-- FsInfo::search_node followed by iterating the returned iterator, as the
address layer does with for loops. -/
def searchNodeList (fs : FsInfo) (root : Nat) (opts : NodeSearchOption) (fuel : Nat) :
    List LeafYield :=
  iterToList fs fuel (BtrfsTreeIter.mk0 root opts)

/-! ## Chunk mapper (src/address.rs) -/

/-- Decode a btrfs_chunk from an item data slice (the transmute at
src/address.rs line 102); indices past the end read as zero. -/
def parseChunkL (data : List Nat) : btrfs_chunk :=
  { length := leList data 0 8
    owner := leList data 8 8
    stripe_len := leList data 16 8
    chunk_type := leList data 24 8
    io_align := leList data 32 4
    io_width := leList data 36 4
    sector_size := leList data 40 4
    num_stripes := leList data 44 2
    sub_stripes := leList data 46 2 }

/-- Stripe record i of a chunk item data slice, as ChunkStripeIter reads it
at byte offset size_of btrfs_chunk + i * size_of btrfs_stripe. -/
def stripeAtL (data : List Nat) (i : Nat) : btrfs_stripe :=
  { devid := leList data (SIZE_CHUNK + SIZE_STRIPE * i) 8
    offset := leList data (SIZE_CHUNK + SIZE_STRIPE * i + 8) 8
    dev_uuid := (List.range 16).map (fun j => data.getD (SIZE_CHUNK + SIZE_STRIPE * i + 16 + j) 0) }

/-- All num_stripes stripe records ChunkStripeIter yields for an item. -/
def chunkStripes (data : List Nat) (n : Nat) : List btrfs_stripe :=
  (List.range n).map (stripeAtL data)

/-- The stripe loops of load_virt_block: the first stripe whose device id is
present in the devid map, with that device. -/
def firstPresent (m : List (Nat × DeviceInfo)) :
    List btrfs_stripe → Option (btrfs_stripe × DeviceInfo)
  | [] => none
  | s :: rest =>
      match devidGet m s.devid with
      | some d => some (s, d)
      | none => firstPresent m rest

/-- The bootstrap loop head shared by load_virt_block and
virtual_offset_to_physical: the first bootstrap chunk covering the address
(start is the disk key offset, the span is the chunk header length). -/
def firstCovering (chunks : List ChunkInfo) (v : Nat) : Option ChunkInfo :=
  chunks.find? (fun c => decide (c.key.offset ≤ v) && decide (v < c.key.offset + c.chunk.length))

/-- The point search option both address functions build for the chunk tree. -/
def chunkOpts (v : Nat) : NodeSearchOption :=
  { min_key := ⟨BTRFS_FIRST_CHUNK_TREE_OBJECTID, CHUNK_ITEM, v⟩
    max_key := ⟨BTRFS_FIRST_CHUNK_TREE_OBJECTID, CHUNK_ITEM, v⟩
    min_match := .eq
    max_match := .eq }

/-- The chunk tree loop of load_virt_block (src/address.rs lines 83-138):
check the item size assert, then return the slice for the first reachable
stripe, else try the next yielded item. -/
def lvbTreeLoop (m : List (Nat × DeviceInfo)) (node_length virt : Nat) :
    List LeafYield → RRes (List Nat)
  | [] => .err .notFound
  | li :: rest =>
      if li.item.size ≠ SIZE_CHUNK + (parseChunkL li.data).num_stripes * SIZE_STRIPE then
        .crash .sizeAssert
      else
        match firstPresent m (chunkStripes li.data (parseChunkL li.data).num_stripes) with
        | some (stripe, dev) =>
            MappedFile_slice dev.file (virt - li.item.key.offset + stripe.offset) node_length
        | none => lvbTreeLoop m node_length virt rest

/-- load_virt_block (src/address.rs lines 61-143).  fuel feeds the chunk tree
search.  The subtractions virt - start never underflow on reachable paths:
the bootstrap branch checks start ≤ virt and the tree search only yields
keys at most equal to its maximum, which is virt. -/
def load_virt_block (fs : FsInfo) (fuel virt_offset : Nat) : RRes (List Nat) :=
  if fs.master_sb.nodesize = 0 then .crash .modZero
  else if virt_offset % fs.master_sb.nodesize ≠ 0 then .crash .alignAssert
  else
    match firstCovering fs.bootstrap_chunks virt_offset with
    | some chunk =>
        match firstPresent fs.devid_map chunk.stripes with
        | some (stripe, dev) =>
            MappedFile_slice dev.file (virt_offset - chunk.key.offset + stripe.offset)
              fs.master_sb.nodesize
        | none => .err .noStripeDevice
    | none =>
        lvbTreeLoop fs.devid_map fs.master_sb.nodesize virt_offset
          (searchNodeList fs fs.master_sb.chunk_root (chunkOpts virt_offset) fuel)

/-- The bootstrap stripe collection of virtual_offset_to_physical: the
(device offset, path) pair of every reachable stripe, in stripe order. -/
def v2pBootStripes (m : List (Nat × DeviceInfo)) (block_start block_offset : Nat)
    (c : ChunkInfo) : List (Nat × Nat) :=
  c.stripes.filterMap
    (fun s => (devidGet m s.devid).map
      (fun d => (block_start - c.key.offset + s.offset + block_offset, d.path)))

/-- The chunk tree loop of virtual_offset_to_physical (src/address.rs lines
176-229): per item, the size assert, then the pairs for every reachable
stripe, accumulated across all yielded items. -/
def v2pTreeLoop (m : List (Nat × DeviceInfo)) (block_start block_offset : Nat) :
    List LeafYield → RRes (List (Nat × Nat))
  | [] => .ok []
  | li :: rest =>
      if li.item.size ≠ SIZE_CHUNK + (parseChunkL li.data).num_stripes * SIZE_STRIPE then
        .crash .sizeAssert
      else
        match v2pTreeLoop m block_start block_offset rest with
        | .ok l =>
            .ok ((chunkStripes li.data (parseChunkL li.data).num_stripes).filterMap
              (fun s => (devidGet m s.devid).map
                (fun d => (block_start - li.item.key.offset + s.offset + block_offset,
                  d.path))) ++ l)
        | other => other

/-- virtual_offset_to_physical (src/address.rs lines 147-239). -/
def virtual_offset_to_physical (fs : FsInfo) (fuel virt_offset : Nat) :
    RRes (List (Nat × Nat)) :=
  if fs.master_sb.nodesize = 0 then .crash .modZero
  else
    match firstCovering fs.bootstrap_chunks
        (virt_offset - virt_offset % fs.master_sb.nodesize) with
    | some chunk =>
        if 0 < (v2pBootStripes fs.devid_map
            (virt_offset - virt_offset % fs.master_sb.nodesize)
            (virt_offset % fs.master_sb.nodesize) chunk).length then
          .ok (v2pBootStripes fs.devid_map
            (virt_offset - virt_offset % fs.master_sb.nodesize)
            (virt_offset % fs.master_sb.nodesize) chunk)
        else .err .noStripeDevice
    | none =>
        match v2pTreeLoop fs.devid_map
            (virt_offset - virt_offset % fs.master_sb.nodesize)
            (virt_offset % fs.master_sb.nodesize)
            (searchNodeList fs fs.master_sb.chunk_root
              (chunkOpts (virt_offset - virt_offset % fs.master_sb.nodesize)) fuel) with
        | .ok results => if 0 < results.length then .ok results else .err .notFound
        | other => other

/-! ## Specification side for tree iteration

GoodNode is the on-disk B-tree well-formedness the format guarantees and
the iterator relies on: blocks decode at their addresses, every node is
nonempty, an internal entry key equals the first item key of its child
subtree, and (as a separate hypothesis where needed) the flattened leaf
item sequence is strictly ascending. -/

/-- The item a yield denotes, forgetting block address and index. -/
def toLeafItem (y : LeafYield) : LeafItem := ⟨y.item, y.data⟩

/-- A key is inside the closed search range. -/
def inRange (opts : NodeSearchOption) (k : btrfs_disk_key) : Bool :=
  decide (cmp_key k opts.min_key ≠ .lt) && decide (cmp_key k opts.max_key ≠ .gt)

/-- The item key is strictly below the minimum of the range. -/
def belowMin (opts : NodeSearchOption) (li : LeafItem) : Bool :=
  cmp_key li.item.key opts.min_key == .lt

/-- The predecessor the iterator additionally yields: when min_key is not
present, the last item below min_key (if any) is emitted, per the implicit
min_match policy of the implementation. -/
def predPart (opts : NodeSearchOption) (items : List LeafItem) : List LeafItem :=
  match (items.takeWhile (belowMin opts)).getLast? with
  | none => []
  | some p =>
      match (items.dropWhile (belowMin opts)).head? with
      | none => [p]
      | some b => if cmp_key b.item.key opts.min_key = .gt then [p] else []

/-- Strict ascending order of leaf items by key. -/
def keyLt (a b : LeafItem) : Prop := cmp_key a.item.key b.item.key = .lt

/-- Well-formed subtree at a virtual address: depth, decoded blocks, child
key agreement, nonemptiness; items is the flattened leaf item sequence. -/
inductive GoodNode (fs : FsInfo) : Nat → Nat → List LeafItem → Prop where
  | leaf (addr : Nat) (items : List LeafItem)
      (hnode : fs.nodes addr = some (.leaf items)) (hne : items ≠ []) :
      GoodNode fs addr 0 items
  | internal (addr level : Nat) (kps : List btrfs_key_ptr)
      (childItems : List (List LeafItem))
      (hnode : fs.nodes addr = some (.internal level kps)) (hpos : 0 < level)
      (hne : kps ≠ []) (hlen : kps.length = childItems.length)
      (hchild : ∀ i (h1 : i < kps.length) (h2 : i < childItems.length),
        GoodNode fs (kps.get ⟨i, h1⟩).blockptr (level - 1) (childItems.get ⟨i, h2⟩))
      (hhead : ∀ i (h1 : i < kps.length) (h2 : i < childItems.length),
        (childItems.get ⟨i, h2⟩).head?.map (fun li => li.item.key) =
          some (kps.get ⟨i, h1⟩).key) :
      GoodNode fs addr level childItems.flatten

/-- Fuel sufficient to drain the iterator over a tree with the given flat
item list and depth. -/
def treeFuel (items : List LeafItem) (d : Nat) : Nat :=
  2 * items.length + d + 4

/-- Outcome of the leaf window scan expressed over the remaining item list:
stop past the range, run out of items, or yield the item after skipping a
count of items. -/
inductive LSL where
  | stop
  | exh
  | yld (skipped : Nat) (li : LeafItem)
  deriving DecidableEq

/-- List-level restatement of the leaf item window loop of
BtrfsTreeIter::next, recursing on the remaining item list; the bridge lemma
leafScanLoop_eq_leafScanL ties it to leafScanLoop. -/
def leafScanL (opts : NodeSearchOption) : List LeafItem → LSL
  | [] => .exh
  | li :: rest =>
      match cmp_key li.item.key opts.min_key with
      | .gt =>
          match cmp_key li.item.key opts.max_key with
          | .gt => .stop
          | _ => .yld 0 li
      | .eq => .yld 0 li
      | .lt =>
          match rest.head? with
          | none => .yld 0 li
          | some rl =>
              if cmp_key rl.item.key opts.min_key = .gt then .yld 0 li
              else
                match leafScanL opts rest with
                | .yld k li2 => .yld (k + 1) li2
                | o => o

/-- Outcome of the internal entry scan of find_key over the remaining
entries: out of range, out of entries, or descend into an entry after
skipping a count of entries. -/
inductive SCL where
  | out
  | exh
  | desc (skipped : Nat) (kp : btrfs_key_ptr)
  deriving DecidableEq

/-- List-level restatement of the entry loop of find_key; the bridge lemma
findKeyScan_eq_scanL ties it to findKeyScan. -/
def scanL (opts : NodeSearchOption) : List btrfs_key_ptr → SCL
  | [] => .exh
  | kp :: rest =>
      match cmp_key kp.key opts.min_key with
      | .gt =>
          match cmp_key kp.key opts.max_key with
          | .gt => .out
          | _ => .desc 0 kp
      | .eq => .desc 0 kp
      | .lt =>
          match rest.head? with
          | none => .desc 0 kp
          | some kp1 =>
              if cmp_key kp1.key opts.min_key = .gt then .desc 0 kp
              else
                match scanL opts rest with
                | .desc k kp2 => .desc (k + 1) kp2
                | o => o

/-- Invariant tying the iterator's internal node stack to the leaf items
still ahead of it: each frame is an internal block whose entries past the
cursor head well-formed subtrees (of the frame's level minus one, keyed by
their first items), and the concatenation of all those subtree item lists,
top of stack first, is the pending remainder; d bounds every frame level. -/
inductive StackInv (fs : FsInfo) (d : Nat) :
    List BtrfsInternalNodeIter → List LeafItem → Prop where
  | nil : StackInv fs d [] []
  | cons (level : Nat) (kps : List btrfs_key_ptr) (boff cur : Nat)
      (CLs : List (List LeafItem)) (stack : List BtrfsInternalNodeIter)
      (restBelow : List LeafItem)
      (hpos : 0 < level) (hd : level ≤ d)
      (hmatch : List.Forall₂ (fun kp C => GoodNode fs kp.blockptr (level - 1) C ∧
        C.head?.map (fun li => li.item.key) = some kp.key) (kps.drop cur) CLs)
      (htail : StackInv fs d stack restBelow) :
      StackInv fs d (⟨.internal level kps, boff, cur⟩ :: stack)
        (CLs.flatten ++ restBelow)

/-! ## Concrete instances used by counterexamples and witnesses -/

/-- A superblock value with the given geometry and everything else zero. -/
def mkSb (nodesize chunk_root : Nat) : btrfs_super_block :=
  { csum := List.replicate 32 0
    magic := BTRFS_MAGIC
    generation := 0
    root := 0
    chunk_root := chunk_root
    total_bytes := 0
    num_devices := 0
    sectorsize := 0
    nodesize := nodesize
    stripesize := 0
    sys_chunk_array_size := 0
    csum_type := 0
    sys_chunk_array := [] }

/-- Device filled with a constant byte. -/
def constDev (size b : Nat) : Device := { size := size, byte := fun _ => b }

/-- A one-leaf tree at address 100 holding the single key (1, 5, 1). -/
def exLeafItem : LeafItem := ⟨⟨⟨1, 5, 1⟩, 0, 0⟩, []⟩

/-- Search options asking for the closed range (2,5,0) .. (3,5,0). -/
def exOpts : NodeSearchOption :=
  { min_key := ⟨2, 5, 0⟩, max_key := ⟨3, 5, 0⟩, min_match := .eq, max_match := .eq }

/-- Filesystem with a single leaf tree block at address 100 and no devices. -/
def exFs1 : FsInfo :=
  { devid_map := []
    master_sb := mkSb 16384 0
    bootstrap_chunks := []
    nodes := fun a => if a = 100 then some (.leaf [exLeafItem]) else none }

/-- Two mirror devices with distinguishable content. -/
def exD1 : DeviceInfo := { path := 1, file := constDev 16 1, devid := 1 }
def exD2 : DeviceInfo := { path := 2, file := constDev 16 2, devid := 2 }

/-- A two-stripe bootstrap chunk covering virtual range 4..8. -/
def exChunk2 : ChunkInfo :=
  { key := ⟨BTRFS_FIRST_CHUNK_TREE_OBJECTID, CHUNK_ITEM, 4⟩
    chunk := { length := 4, owner := 2, stripe_len := 0, chunk_type := 0,
               io_align := 0, io_width := 0, sector_size := 0,
               num_stripes := 2, sub_stripes := 0 }
    stripes := [⟨1, 0, []⟩, ⟨2, 4, []⟩] }

/-- Filesystem with nodesize 4, a two-stripe bootstrap chunk and two devices
whose contents differ, so the two stripe copies disagree. -/
def exFs2 : FsInfo :=
  { devid_map := [(1, exD1), (2, exD2)]
    master_sb := mkSb 4 0
    bootstrap_chunks := [exChunk2]
    nodes := fun _ => none }

/-- On-disk data slice of a one-stripe chunk item: the 48 header bytes
(length 4 at offset 0, num_stripes 1 at offset 44) followed by one 32-byte
stripe record (devid 1 at offset 48, device offset 12 at offset 56). -/
def exChunkData3 : List Nat :=
  [4] ++ List.replicate 43 0 ++ [1, 0, 0, 0] ++
    ([1] ++ List.replicate 7 0) ++ ([12] ++ List.replicate 7 0) ++
    List.replicate 16 0

/-- A chunk tree leaf item holding that chunk at key (256, CHUNK_ITEM, 4)
with the consistent item size 48 + 1 * 32. -/
def exItem3 : LeafItem :=
  ⟨⟨⟨BTRFS_FIRST_CHUNK_TREE_OBJECTID, CHUNK_ITEM, 4⟩, 0, 80⟩, exChunkData3⟩

/-- Filesystem with no bootstrap chunks whose chunk tree is the single leaf
at address 7 holding exItem3, over one known device: the chunk tree branch
of the address mapper runs on it. -/
def exFs3 : FsInfo :=
  { devid_map := [(1, exD1)]
    master_sb := mkSb 4 7
    bootstrap_chunks := []
    nodes := fun a => if a = 7 then some (.leaf [exItem3]) else none }

/-- Superblock whose system chunk array carries, in the on-disk format, one
chunk record with num_stripes = 1: 17 key bytes (objectid 256, type
CHUNK_ITEM, offset 0), 48 chunk header bytes (num_stripes = 1 at offset
44), then one 32-byte stripe record; sys_chunk_array_size = 97. -/
def exSb5 : btrfs_super_block :=
  { mkSb 16384 0 with
    sys_chunk_array_size := 97
    sys_chunk_array :=
      [0, 1, 0, 0, 0, 0, 0, 0,
       0xe4,
       0, 0, 0, 0, 0, 0, 0, 0] ++
      List.replicate 44 0 ++ [1, 0, 0, 0] ++
      List.replicate 32 0 }

/-- Byte content of the counterexample device for the superblock loader:
a checksum-valid superblock at the primary offset whose geometry fields are
all zero (generation 7). -/
def exDev6Byte (i : Nat) : Nat :=
  if i = 65536 then 0x83 else if i = 65537 then 0xCD
  else if i = 65538 then 0xE0 else if i = 65539 then 0xCE
  else if i = 65600 then 95 else if i = 65601 then 66
  else if i = 65602 then 72 else if i = 65603 then 82
  else if i = 65604 then 102 else if i = 65605 then 83
  else if i = 65606 then 95 else if i = 65607 then 77
  else if i = 65608 then 7
  else if i = 65696 then 65
  else if i = 66348 then 1 else if i = 66355 then 0xe4
  else if i = 66408 then 1
  else 0

def exDev6 : Device := { size := 69632, byte := exDev6Byte }

/-- Byte content of the mirror counterexample device: a checksum-valid
superblock with generation 100 at the primary offset 65536 and a
checksum-valid superblock with generation 102 at the first mirror offset
0x4000 shifted left by 12, that is 67108864. -/
def exDev4Byte (i : Nat) : Nat :=
  if i = 65536 then 0x8F else if i = 65537 then 0xA6
  else if i = 65538 then 0x95 else if i = 65539 then 0x3B
  else if i = 65600 then 95 else if i = 65601 then 66
  else if i = 65602 then 72 else if i = 65603 then 82
  else if i = 65604 then 102 else if i = 65605 then 83
  else if i = 65606 then 95 else if i = 65607 then 77
  else if i = 65608 then 100
  else if i = 65696 then 65
  else if i = 66348 then 1 else if i = 66355 then 0xe4
  else if i = 66408 then 1
  else if i = 67108864 then 0x91 else if i = 67108865 then 0x5B
  else if i = 67108866 then 0x58 else if i = 67108867 then 0x72
  else if i = 67108928 then 95 else if i = 67108929 then 66
  else if i = 67108930 then 72 else if i = 67108931 then 82
  else if i = 67108932 then 102 else if i = 67108933 then 83
  else if i = 67108934 then 95 else if i = 67108935 then 77
  else if i = 67108936 then 102
  else if i = 67109024 then 65
  else if i = 67109676 then 1 else if i = 67109683 then 0xe4
  else if i = 67109736 then 1
  else 0

def exDev4 : Device := { size := 67112960, byte := exDev4Byte }

/-- The same device with the mirror region zeroed out, for the statement
that load_sb never looks at mirror locations. -/
def exDev4Primary : Device :=
  { size := 67112960, byte := fun i => if i < 69632 then exDev4Byte i else 0 }

/-! # Theorems -/

/-- C7: cmp_key orders keys lexicographically, comparing objectid first,
breaking ties on the numeric item_type, then on offset, and returns Equal
exactly when all three fields agree. -/
theorem claim_C7_cmp_key_lexicographic : ∀ l r : btrfs_disk_key,
    (cmp_key l r = .lt ↔
      l.objectid < r.objectid ∨ (l.objectid = r.objectid ∧
        (l.item_type < r.item_type ∨ (l.item_type = r.item_type ∧ l.offset < r.offset)))) ∧
    (cmp_key l r = .gt ↔
      r.objectid < l.objectid ∨ (l.objectid = r.objectid ∧
        (r.item_type < l.item_type ∨ (l.item_type = r.item_type ∧ r.offset < l.offset)))) ∧
    (cmp_key l r = .eq ↔ l = r) := by
  intro l r
  obtain ⟨lo, lt, lof⟩ := l
  obtain ⟨ro, rt, rof⟩ := r
  simp only [cmp_key, btrfs_disk_key.mk.injEq]
  split_ifs <;> simp_all <;> omega

/-- C9: MappedFile::at is off by one: at length 10 with a 4-byte type,
offset 6 satisfies offset + size = len, which the claim and the
documented precondition allow, yet the access panics. -/
theorem claim_C9_at_off_by_one :
    mappedFileAtCrashes 10 4 6 = true ∧ 6 + 4 ≤ 10 := by decide

/-- C5: on a system chunk array holding one on-disk-format record with
num_stripes = 1 (17 + 48 + 32 = 97 bytes, array size 97), SysChunkIter
consumes no stripe record at all (cursor left at 65, stripes empty), then
misparses the stripe bytes as a second record and finally panics in its
termination assert instead of stopping cleanly at the array size. -/
theorem claim_C5_theorem :
    sysChunkNext (fun i => exSb5.sys_chunk_array.getD i 0) exSb5.sys_chunk_array_size 0 =
      .item ⟨⟨256, 0xe4, 0⟩, ⟨0, 0, 0, 0, 0, 0, 0, 1, 0⟩, []⟩ 65 ∧
    SIZE_DISK_KEY + SIZE_CHUNK + 1 * SIZE_STRIPE = 97 ∧
    exSb5.sys_chunk_array_size = 97 ∧
    sysChunkList exSb5 = .crash .sysChunkAssert := by decide

/-- C1 counterexample: over a one-leaf tree holding only the key (1,5,1),
the search for the range (2,5,0)..(3,5,0) (a valid range, min below max)
yields that item even though its key is strictly below the range minimum,
refuting that no item outside [min_key, max_key] is yielded. -/
theorem claim_C1_counterexample :
    cmp_key exOpts.min_key exOpts.max_key ≠ .gt ∧
    iterToList exFs1 10 (BtrfsTreeIter.mk0 100 exOpts) =
      [⟨⟨⟨1, 5, 1⟩, 0, 0⟩, [], 100, 0⟩] ∧
    cmp_key (⟨1, 5, 1⟩ : btrfs_disk_key) exOpts.min_key = .lt := by decide

/-- C2 counterexample: with a two-stripe bootstrap chunk whose two device
copies hold different bytes, load_virt_block succeeds with the first
stripe's bytes while virtual_offset_to_physical also returns the second
stripe's pair, and reading nodesize bytes there gives different bytes -
so not every returned pair reads back the bytes load_virt_block returned. -/
theorem claim_C2_counterexample :
    load_virt_block exFs2 1 4 = .ok [1, 1, 1, 1] ∧
    virtual_offset_to_physical exFs2 1 4 = .ok [(0, 1), (4, 2)] ∧
    exD2.path = 2 ∧
    devRead exD2.file 4 4 = [2, 2, 2, 2] ∧
    ([2, 2, 2, 2] : List Nat) ≠ [1, 1, 1, 1] := by decide

/-- C8: csum_data_crc32 returns a 32-byte value carrying the little-endian
CRC-32C in its first 4 bytes and zeros elsewhere, and on input bytes
01..09 the first four bytes are f9 b9 14 5a. -/
theorem claim_C8_theorem :
    (∀ buf, (csum_data_crc32 buf).length = 32 ∧
      (csum_data_crc32 buf).take 4 = leBytes 4 (crc32c buf) ∧
      (csum_data_crc32 buf).drop 4 = List.replicate 28 0) ∧
    csum_data_crc32 [1, 2, 3, 4, 5, 6, 7, 8, 9] =
      0xf9 :: 0xb9 :: 0x14 :: 0x5a :: List.replicate 28 0 := by
  constructor
  · intro buf
    have h4 : (leBytes 4 (crc32c buf)).length = 4 := by simp [leBytes]
    unfold csum_data_crc32 BTRFS_CSUM_SIZE
    refine ⟨?_, ?_, ?_⟩
    · simp [h4]
    · rw [List.take_append_of_le_length (by omega)]
      simp [h4]
    · rw [List.drop_append_of_le_length (by omega)]
      simp [h4]
  · decide

/-- A slice never raises the alignment assertion. -/
theorem slice_no_align (d : Device) (o l : Nat) :
    MappedFile_slice d o l ≠ .crash .alignAssert := by
  unfold MappedFile_slice
  split <;> simp

/-- The chunk tree loop of load_virt_block never raises the alignment
assertion. -/
theorem lvbTreeLoop_no_align (m : List (Nat × DeviceInfo)) (n v : Nat) :
    ∀ items, lvbTreeLoop m n v items ≠ .crash .alignAssert := by
  intro items
  induction items with
  | nil => simp [lvbTreeLoop]
  | cons li rest ih =>
      unfold lvbTreeLoop
      split
      · simp
      · match hfp : firstPresent m (chunkStripes li.data (parseChunkL li.data).num_stripes) with
        | some (s, d) =>
            simpa [hfp] using slice_no_align d.file (v - li.item.key.offset + s.offset) n
        | none => simpa [hfp] using ih

/-- C10: load_virt_block asserts nodesize alignment of the virtual address:
an unaligned address panics in the assertion (it does not return an error),
and an aligned address never reaches that assertion. -/
theorem claim_C10_theorem : ∀ (fs : FsInfo) (fuel v : Nat),
    0 < fs.master_sb.nodesize →
    (v % fs.master_sb.nodesize ≠ 0 → load_virt_block fs fuel v = .crash .alignAssert) ∧
    (v % fs.master_sb.nodesize = 0 → load_virt_block fs fuel v ≠ .crash .alignAssert) := by
  intro fs fuel v hn
  have hnz : fs.master_sb.nodesize ≠ 0 := Nat.pos_iff_ne_zero.mp hn
  constructor
  · intro hmod
    unfold load_virt_block
    rw [if_neg hnz, if_pos hmod]
  · intro hmod
    unfold load_virt_block
    rw [if_neg hnz, if_neg (fun h => h hmod)]
    match hc : firstCovering fs.bootstrap_chunks v with
    | some chunk =>
        dsimp only
        match hfp : firstPresent fs.devid_map chunk.stripes with
        | some (s, d) =>
            dsimp only
            exact slice_no_align d.file (v - chunk.key.offset + s.offset) _
        | none => simp
    | none =>
        dsimp only
        exact lvbTreeLoop_no_align _ _ _ _

/-- C10 witness: on the concrete filesystem exFs1 (nodesize 16384) address
1 is unaligned and panics in the assertion, while address 0 is aligned and
does not reach it. -/
theorem claim_C10_witness :
    load_virt_block exFs1 1 1 = .crash .alignAssert ∧
    load_virt_block exFs1 1 0 ≠ .crash .alignAssert :=
  ⟨(claim_C10_theorem exFs1 1 1 (by decide)).1 (by decide),
   (claim_C10_theorem exFs1 1 0 (by decide)).2 (by decide)⟩

set_option maxRecDepth 1000000 in
set_option maxHeartbeats 4000000 in
/-- C6 counterexample: exDev6 carries a superblock whose magic and checksum
are valid but whose total_bytes, num_devices, sectorsize, nodesize and
stripesize are all zero, and load_sb still returns Ok - no nonzero
validation is performed. -/
theorem claim_C6_counterexample :
    load_sb exDev6 =
      .ok (parseSb (fun i => exDev6.byte (BTRFS_SUPER_INFO_OFFSET + i))) ∧
    (parseSb (fun i => exDev6.byte (BTRFS_SUPER_INFO_OFFSET + i))).total_bytes = 0 ∧
    (parseSb (fun i => exDev6.byte (BTRFS_SUPER_INFO_OFFSET + i))).num_devices = 0 ∧
    (parseSb (fun i => exDev6.byte (BTRFS_SUPER_INFO_OFFSET + i))).sectorsize = 0 ∧
    (parseSb (fun i => exDev6.byte (BTRFS_SUPER_INFO_OFFSET + i))).nodesize = 0 ∧
    (parseSb (fun i => exDev6.byte (BTRFS_SUPER_INFO_OFFSET + i))).stripesize = 0 := by
  refine ⟨rfl, rfl, rfl, rfl, rfl, rfl⟩

/-- C6 amended: load_sb returns Ok exactly when the primary region is
readable, the magic matches, the checksum type is CRC32C and the stored
checksum equals the checksum over bytes 32..4096, and the system chunk
array walk of dump_chunks raises no assertion; the nonzero-geometry checks
the claim lists are not performed. -/
theorem claim_C6_theorem : ∀ dev : Device,
    (∃ sb, load_sb dev = .ok sb) ↔
      (BTRFS_SUPER_INFO_OFFSET + BTRFS_SUPER_INFO_SIZE ≤ dev.size ∧
       (parseSb (fun i => dev.byte (BTRFS_SUPER_INFO_OFFSET + i))).magic = BTRFS_MAGIC ∧
       (parseSb (fun i => dev.byte (BTRFS_SUPER_INFO_OFFSET + i))).csum_type = 0 ∧
       csum_data_range (fun i => dev.byte (BTRFS_SUPER_INFO_OFFSET + i)) BTRFS_CSUM_SIZE
         (BTRFS_SUPER_INFO_SIZE - BTRFS_CSUM_SIZE) =
         (parseSb (fun i => dev.byte (BTRFS_SUPER_INFO_OFFSET + i))).csum ∧
       dumpChunks (parseSb (fun i => dev.byte (BTRFS_SUPER_INFO_OFFSET + i))) = none) := by
  intro dev
  unfold load_sb loadSbAt
  constructor
  · intro ⟨sb, hsb⟩
    split_ifs at hsb with h1 h2 h3 h4
    · refine ⟨Nat.le_of_not_lt h1, not_not.mp h2, not_not.mp h3, not_not.mp h4, ?_⟩
      rcases hd : dumpChunks (parseSb fun i => dev.byte (BTRFS_SUPER_INFO_OFFSET + i)) with _ | c
      · rfl
      · rw [hd] at hsb
        exact RRes.noConfusion hsb
  · intro ⟨h1, h2, h3, h4, h5⟩
    rw [if_neg (Nat.not_lt.mpr h1), if_neg (not_not.mpr h2), if_neg (not_not.mpr h3),
      if_neg (not_not.mpr h4), h5]
    exact ⟨_, rfl⟩

/-- Unfolding equation of the CRC fold at a successor count. -/
theorem crcF_succ (f : Nat → Nat) (n acc lo : Nat) :
    crcF f (n + 1) acc lo = crcF f n (crc32cByte acc (f lo)) (lo + 1) := by
  show (let a := crc32cByte acc (f lo);
    if a = a then crcF f n a (lo + 1) else crcF f n a (lo + 1)) = _
  simp

/-- leVal only looks at the n bytes from off. -/
theorem leVal_congr (f g : Nat → Nat) : ∀ (n off : Nat),
    (∀ i, off ≤ i → i < off + n → f i = g i) → leVal f off n = leVal g off n := by
  intro n
  induction n with
  | zero => intro off _; rfl
  | succ n ih =>
      intro off h
      unfold leVal
      rw [h off (le_refl _) (by omega), ih (off + 1) (fun i h1 h2 => h i (by omega) (by omega))]

/-- The CRC fold only looks at the n bytes from lo. -/
theorem crcF_congr (f g : Nat → Nat) : ∀ (n acc lo : Nat),
    (∀ i, lo ≤ i → i < lo + n → f i = g i) → crcF f n acc lo = crcF g n acc lo := by
  intro n
  induction n with
  | zero => intro acc lo _; rfl
  | succ n ih =>
      intro acc lo h
      rw [crcF_succ, crcF_succ, h lo (le_refl _) (by omega)]
      exact ih _ _ (fun i h1 h2 => h i (by omega) (by omega))

/-- The range checksum only looks at the n bytes from lo. -/
theorem csum_data_range_congr (f g : Nat → Nat) (lo n : Nat)
    (h : ∀ i, lo ≤ i → i < lo + n → f i = g i) :
    csum_data_range f lo n = csum_data_range g lo n := by
  unfold csum_data_range crc32cRange
  rw [crcF_congr f g n _ lo h]

/-- Superblock parsing only looks at the 4096 bytes of the record. -/
theorem parseSb_congr (f g : Nat → Nat)
    (h : ∀ i, i < BTRFS_SUPER_INFO_SIZE → f i = g i) : parseSb f = parseSb g := by
  have h4 : ∀ i, i < 4096 → f i = g i := by
    intro i hi
    exact h i (by unfold BTRFS_SUPER_INFO_SIZE; omega)
  have hb : ∀ off n, off + n ≤ 4096 → leVal f off n = leVal g off n := fun off n hn =>
    leVal_congr f g n off (fun i h1 h2 => h4 i (by omega))
  unfold parseSb
  simp only [btrfs_super_block.mk.injEq]
  refine ⟨?_, ?_, ?_, ?_, ?_, ?_, ?_, ?_, ?_, ?_, ?_, ?_, ?_⟩
  · exact List.map_congr_left (fun i hi => h4 i (by simp at hi; omega))
  · exact hb 64 8 (by omega)
  · exact hb 72 8 (by omega)
  · exact hb 80 8 (by omega)
  · exact hb 88 8 (by omega)
  · exact hb 112 8 (by omega)
  · exact hb 136 8 (by omega)
  · exact hb 144 4 (by omega)
  · exact hb 148 4 (by omega)
  · exact hb 156 4 (by omega)
  · exact hb 160 4 (by omega)
  · exact hb 196 2 (by omega)
  · exact List.map_congr_left (fun i hi => h4 (811 + i)
      (by simp [BTRFS_SYSTEM_CHUNK_ARRAY_SIZE] at hi; omega))

set_option maxRecDepth 1000000 in
set_option maxHeartbeats 4000000 in
/-- C4 counterexample: exDev4 carries a checksum-valid superblock with
generation 100 at the primary offset and a checksum-valid superblock with
generation 102 at the first mirror offset 0x4000 shifted by 12, yet load_sb
returns the generation-100 one: mirrors are not attempted and the maximum
generation is not selected. -/
theorem claim_C4_counterexample :
    load_sb exDev4 =
      .ok (parseSb (fun i => exDev4.byte (BTRFS_SUPER_INFO_OFFSET + i))) ∧
    (parseSb (fun i => exDev4.byte (BTRFS_SUPER_INFO_OFFSET + i))).generation = 100 ∧
    (0x4000 : Nat) <<< (12 * 1) = 67108864 ∧
    67108864 + BTRFS_SUPER_INFO_SIZE ≤ exDev4.size ∧
    loadSbAt exDev4 67108864 = .ok (parseSb (fun i => exDev4.byte (67108864 + i))) ∧
    (parseSb (fun i => exDev4.byte (67108864 + i))).generation = 102 := by
  refine ⟨rfl, rfl, by decide, by decide, rfl, rfl⟩

/-- C4 amended: load_sb consults only the device length and the primary
4096-byte superblock region at offset 65536; two devices agreeing there get
identical results, so mirror superblocks never participate in the choice. -/
theorem claim_C4_theorem : ∀ dev dev2 : Device, dev.size = dev2.size →
    (∀ i, i < BTRFS_SUPER_INFO_SIZE →
      dev.byte (BTRFS_SUPER_INFO_OFFSET + i) = dev2.byte (BTRFS_SUPER_INFO_OFFSET + i)) →
    load_sb dev = load_sb dev2 := by
  intro dev dev2 hsize h
  have hsb : parseSb (fun i => dev.byte (BTRFS_SUPER_INFO_OFFSET + i)) =
      parseSb (fun i => dev2.byte (BTRFS_SUPER_INFO_OFFSET + i)) :=
    parseSb_congr _ _ (fun i hi => h i hi)
  have hcs : csum_data_range (fun i => dev.byte (BTRFS_SUPER_INFO_OFFSET + i))
        BTRFS_CSUM_SIZE (BTRFS_SUPER_INFO_SIZE - BTRFS_CSUM_SIZE) =
      csum_data_range (fun i => dev2.byte (BTRFS_SUPER_INFO_OFFSET + i))
        BTRFS_CSUM_SIZE (BTRFS_SUPER_INFO_SIZE - BTRFS_CSUM_SIZE) :=
    csum_data_range_congr _ _ _ _
      (fun i h1 h2 => h i (by
        simp only [BTRFS_SUPER_INFO_SIZE, BTRFS_CSUM_SIZE] at h1 h2 ⊢
        omega))
  unfold load_sb loadSbAt
  rw [hsize, hsb, hcs]

/-- A successful slice returns exactly the bytes read at its offset. -/
theorem slice_ok_devRead (d : Device) (o l : Nat) (bytes : List Nat)
    (h : MappedFile_slice d o l = .ok bytes) : devRead d o l = bytes := by
  unfold MappedFile_slice at h
  by_cases hb : o + l ≤ d.size
  · rw [if_pos hb] at h
    injection h with h'
  · rw [if_neg hb] at h
    exact RRes.noConfusion h

/-- When no stripe has a known device, the stripe collection is empty. -/
theorem filterMap_of_firstPresent_none {α : Type} (m : List (Nat × DeviceInfo))
    (g : btrfs_stripe → DeviceInfo → α) :
    ∀ ss, firstPresent m ss = none →
    ss.filterMap (fun s => (devidGet m s.devid).map (g s)) = [] := by
  intro ss
  induction ss with
  | nil => intro _; rfl
  | cons s rest ih =>
      intro h
      unfold firstPresent at h
      match hd : devidGet m s.devid with
      | some d => rw [hd] at h; exact Option.noConfusion h
      | none =>
          rw [hd] at h
          simp only [List.filterMap_cons, hd, Option.map_none]
          exact ih h

/-- The stripe the source picks first heads the collected pair list. -/
theorem filterMap_of_firstPresent_some {α : Type} (m : List (Nat × DeviceInfo))
    (g : btrfs_stripe → DeviceInfo → α) :
    ∀ ss s d, firstPresent m ss = some (s, d) →
    devidGet m s.devid = some d ∧
    ∃ tail, ss.filterMap (fun s => (devidGet m s.devid).map (g s)) = g s d :: tail := by
  intro ss
  induction ss with
  | nil => intro s d h; exact Option.noConfusion h
  | cons s0 rest ih =>
      intro s d h
      unfold firstPresent at h
      match hd : devidGet m s0.devid with
      | some d0 =>
          rw [hd] at h
          injection h with h'
          rw [Prod.mk.injEq] at h'
          obtain ⟨h1, h2⟩ := h'
          subst h1
          subst h2
          refine ⟨hd, ?_⟩
          simp only [List.filterMap_cons, hd, Option.map_some]
          exact ⟨_, rfl⟩
      | none =>
          rw [hd] at h
          obtain ⟨hdev, tail, htail⟩ := ih s d h
          refine ⟨hdev, ?_⟩
          simp only [List.filterMap_cons, hd, Option.map_none]
          exact ⟨tail, htail⟩

/-- Under the chunk-item size invariant the v2p tree loop cannot fail. -/
theorem v2pTreeLoop_ok (m : List (Nat × DeviceInfo)) (bs bo : Nat) :
    ∀ items : List LeafYield,
    (∀ li ∈ items,
      li.item.size = SIZE_CHUNK + (parseChunkL li.data).num_stripes * SIZE_STRIPE) →
    ∃ l, v2pTreeLoop m bs bo items = .ok l := by
  intro items
  induction items with
  | nil => intro _; exact ⟨[], rfl⟩
  | cons li rest ih =>
      intro h
      obtain ⟨l, hl⟩ := ih (fun x hx => h x (List.mem_cons_of_mem _ hx))
      unfold v2pTreeLoop
      rw [if_neg (not_not.mpr (h li (List.mem_cons_self _ _))), hl]
      exact ⟨_, rfl⟩

/-- Every stripe with a known device, of every chunk item the v2p tree loop
processes, contributes its computed pair to the successful result. -/
theorem v2pTreeLoop_mem (m : List (Nat × DeviceInfo)) (bs bo : Nat) :
    ∀ (items : List LeafYield) (l : List (Nat × Nat)),
    v2pTreeLoop m bs bo items = .ok l →
    ∀ li ∈ items, ∀ S ∈ chunkStripes li.data (parseChunkL li.data).num_stripes,
    ∀ dev, devidGet m S.devid = some dev →
    (bs - li.item.key.offset + S.offset + bo, dev.path) ∈ l := by
  intro items
  induction items with
  | nil =>
      intro l _ li hli
      simp at hli
  | cons li0 rest ih =>
      intro l hl li hli S hS dev hdev
      unfold v2pTreeLoop at hl
      by_cases hsz : li0.item.size =
          SIZE_CHUNK + (parseChunkL li0.data).num_stripes * SIZE_STRIPE
      · rw [if_neg (not_not.mpr hsz)] at hl
        match hrec : v2pTreeLoop m bs bo rest with
        | .ok l2 =>
            rw [hrec] at hl
            injection hl with hl
            subst hl
            rcases List.mem_cons.mp hli with h | h
            · subst h
              refine List.mem_append.mpr (Or.inl ?_)
              exact List.mem_filterMap.mpr ⟨S, hS, by rw [hdev]; rfl⟩
            · exact List.mem_append.mpr (Or.inr (ih l2 hrec li h S hS dev hdev))
        | .err e =>
            rw [hrec] at hl
            exact RRes.noConfusion hl
        | .crash c =>
            rw [hrec] at hl
            exact RRes.noConfusion hl
      · rw [if_pos hsz] at hl
        exact RRes.noConfusion hl

/-- Correspondence of the two chunk-tree loops: when load_virt_block
succeeds from an item list, virtual_offset_to_physical collects a pair list
headed by the very stripe load_virt_block chose, and reading nodesize bytes
there reproduces the returned block. -/
theorem lvb_v2p_tree (m : List (Nat × DeviceInfo)) (n v : Nat) :
    ∀ (items : List LeafYield) (bytes : List Nat),
    (∀ li ∈ items,
      li.item.size = SIZE_CHUNK + (parseChunkL li.data).num_stripes * SIZE_STRIPE) →
    lvbTreeLoop m n v items = .ok bytes →
    ∃ o p rest dev, v2pTreeLoop m v 0 items = .ok ((o, p) :: rest) ∧
      dev.path = p ∧ (∃ id, devidGet m id = some dev) ∧
      devRead dev.file o n = bytes := by
  intro items
  induction items with
  | nil => intro bytes _ h; exact RRes.noConfusion h
  | cons li rest ih =>
      intro bytes hsz hok
      have hszli := hsz li (List.mem_cons_self _ _)
      have hszrest := fun x hx => hsz x (List.mem_cons_of_mem _ hx)
      unfold lvbTreeLoop at hok
      rw [if_neg (not_not.mpr hszli)] at hok
      unfold v2pTreeLoop
      rw [if_neg (not_not.mpr hszli)]
      obtain ⟨l, hl⟩ := v2pTreeLoop_ok m v 0 rest hszrest
      match hfp : firstPresent m (chunkStripes li.data (parseChunkL li.data).num_stripes) with
      | some (s, d) =>
          rw [hfp] at hok
          obtain ⟨hdev, tail, htail⟩ := filterMap_of_firstPresent_some m
            (fun s d => (v - li.item.key.offset + s.offset + 0, d.path)) _ s d hfp
          rw [hl]
          refine ⟨v - li.item.key.offset + s.offset + 0, d.path, tail ++ l, d, ?_, rfl,
            ⟨s.devid, hdev⟩, ?_⟩
          · rw [htail]
            rfl
          · rw [Nat.add_zero]
            exact slice_ok_devRead _ _ _ _ hok
      | none =>
          rw [hfp] at hok
          obtain ⟨o, p, rest2, dev, hv2p, hp, hid, hrd⟩ := ih bytes hszrest hok
          rw [hv2p] at hl
          injection hl with hl'
          refine ⟨o, p, rest2, dev, ?_, hp, hid, hrd⟩
          rw [hv2p,
            filterMap_of_firstPresent_none m
              (fun s d => (v - li.item.key.offset + s.offset + 0, d.path)) _ hfp]
          rfl

/-- C2 amended: whenever load_virt_block succeeds (and every chunk item the
point search yields has a consistent size field, as the shared assert
demands), virtual_offset_to_physical returns Ok with a non-empty vector
whose first pair denotes the stripe load_virt_block read: reading nodesize
bytes at that device offset gives exactly the bytes load_virt_block
returned.  Pairs for other stripes point at other replicas, whose content
the code never compares. -/
theorem claim_C2_theorem : ∀ (fs : FsInfo) (fuel v : Nat) (bytes : List Nat),
    load_virt_block fs fuel v = .ok bytes →
    (∀ li ∈ searchNodeList fs fs.master_sb.chunk_root (chunkOpts v) fuel,
      li.item.size = SIZE_CHUNK + (parseChunkL li.data).num_stripes * SIZE_STRIPE) →
    ∃ o p rest dev, virtual_offset_to_physical fs fuel v = .ok ((o, p) :: rest) ∧
      dev.path = p ∧ (∃ id, devidGet fs.devid_map id = some dev) ∧
      devRead dev.file o fs.master_sb.nodesize = bytes := by
  intro fs fuel v bytes hok hsz
  unfold load_virt_block at hok
  by_cases hn : fs.master_sb.nodesize = 0
  · rw [if_pos hn] at hok; exact RRes.noConfusion hok
  rw [if_neg hn] at hok
  by_cases hmod : v % fs.master_sb.nodesize = 0
  case neg => rw [if_pos hmod] at hok; exact RRes.noConfusion hok
  rw [if_neg (fun h => h hmod)] at hok
  unfold virtual_offset_to_physical
  rw [if_neg hn]
  simp only [hmod, Nat.sub_zero]
  match hc : firstCovering fs.bootstrap_chunks v with
  | some chunk =>
      rw [hc] at hok
      dsimp only at hok ⊢
      match hfp : firstPresent fs.devid_map chunk.stripes with
      | some (s, d) =>
          rw [hfp] at hok
          obtain ⟨hdev, tail, htail⟩ := filterMap_of_firstPresent_some fs.devid_map
            (fun s d => (v - chunk.key.offset + s.offset + 0, d.path)) _ s d hfp
          have hres : v2pBootStripes fs.devid_map v 0 chunk =
              (v - chunk.key.offset + s.offset + 0, d.path) :: tail := htail
          rw [hres, if_pos (by simp)]
          refine ⟨v - chunk.key.offset + s.offset + 0, d.path, tail, d, rfl, rfl,
            ⟨s.devid, hdev⟩, ?_⟩
          rw [Nat.add_zero]
          exact slice_ok_devRead _ _ _ _ hok
      | none =>
          rw [hfp] at hok
          exact RRes.noConfusion hok
  | none =>
      rw [hc] at hok
      dsimp only at hok ⊢
      obtain ⟨o, p, rest, dev, hv2p, hp, hid, hrd⟩ :=
        lvb_v2p_tree fs.devid_map fs.master_sb.nodesize v _ bytes hsz hok
      rw [hv2p]
      dsimp only
      rw [if_pos (by simp)]
      exact ⟨o, p, rest, dev, rfl, hp, hid, hrd⟩

/-- C2 witness: on exFs2 the dual-stripe bootstrap read succeeds and the
first returned pair reads back the same four bytes. -/
theorem claim_C2_witness :
    ∃ o p rest dev, virtual_offset_to_physical exFs2 1 4 = .ok ((o, p) :: rest) ∧
      dev.path = p ∧ (∃ id, devidGet exFs2.devid_map id = some dev) ∧
      devRead dev.file o exFs2.master_sb.nodesize = [1, 1, 1, 1] :=
  claim_C2_theorem exFs2 1 4 [1, 1, 1, 1] (by decide) (by decide)

/-- C3: for every chunk C covering a nodesize-aligned virtual address v and
every stripe S of C whose device id is known, the physical offset
virtual_offset_to_physical reports for that stripe is v - C.start + S.offset
— in both branches of the source: for the bootstrap chunk the search over
fs.bootstrap_chunks selects, and for every chunk item the chunk tree point
search yields (under the per-item size-field consistency the shared assert
otherwise turns into a panic), where C.start is the chunk key offset. -/
theorem claim_C3_theorem : ∀ (fs : FsInfo) (fuel v : Nat),
    0 < fs.master_sb.nodesize →
    v % fs.master_sb.nodesize = 0 →
    (∀ (C : ChunkInfo) (S : btrfs_stripe) (dev : DeviceInfo),
      firstCovering fs.bootstrap_chunks v = some C →
      S ∈ C.stripes →
      devidGet fs.devid_map S.devid = some dev →
      ∃ res, virtual_offset_to_physical fs fuel v = .ok res ∧
        (v - C.key.offset + S.offset, dev.path) ∈ res) ∧
    (∀ (li : LeafYield) (S : btrfs_stripe) (dev : DeviceInfo),
      firstCovering fs.bootstrap_chunks v = none →
      (∀ li' ∈ searchNodeList fs fs.master_sb.chunk_root (chunkOpts v) fuel,
        li'.item.size = SIZE_CHUNK + (parseChunkL li'.data).num_stripes * SIZE_STRIPE) →
      li ∈ searchNodeList fs fs.master_sb.chunk_root (chunkOpts v) fuel →
      S ∈ chunkStripes li.data (parseChunkL li.data).num_stripes →
      devidGet fs.devid_map S.devid = some dev →
      ∃ res, virtual_offset_to_physical fs fuel v = .ok res ∧
        (v - li.item.key.offset + S.offset, dev.path) ∈ res) := by
  intro fs fuel v hn hmod
  have hnz : fs.master_sb.nodesize ≠ 0 := Nat.pos_iff_ne_zero.mp hn
  constructor
  · intro C S dev hcov hS hdev
    have hmem : (v - C.key.offset + S.offset, dev.path) ∈
        v2pBootStripes fs.devid_map v 0 C := by
      unfold v2pBootStripes
      exact List.mem_filterMap.mpr ⟨S, hS, by rw [hdev]; simp⟩
    unfold virtual_offset_to_physical
    rw [if_neg hnz]
    simp only [hmod, Nat.sub_zero]
    rw [hcov]
    dsimp only
    have hlen : 0 < (v2pBootStripes fs.devid_map v 0 C).length :=
      List.length_pos.mpr (List.ne_nil_of_mem hmem)
    rw [if_pos hlen]
    exact ⟨_, rfl, hmem⟩
  · intro li S dev hnone hsz hli hS hdev
    obtain ⟨l, hl⟩ := v2pTreeLoop_ok fs.devid_map v 0 _ hsz
    have hmem : (v - li.item.key.offset + S.offset + 0, dev.path) ∈ l :=
      v2pTreeLoop_mem fs.devid_map v 0 _ l hl li hli S hS dev hdev
    unfold virtual_offset_to_physical
    rw [if_neg hnz]
    simp only [hmod, Nat.sub_zero]
    rw [hnone]
    dsimp only
    rw [hl]
    dsimp only
    rw [if_pos (List.length_pos.mpr (List.ne_nil_of_mem hmem))]
    refine ⟨l, rfl, ?_⟩
    rw [Nat.add_zero] at hmem
    exact hmem

/-- C3 witness: on exFs2 the bootstrap chunk covering address 4 maps stripe
(devid 2, offset 4) to pair (4, 2); on exFs3 the chunk tree branch maps the
yielded chunk item's stripe (devid 1, offset 12) to pair (12, 1). -/
theorem claim_C3_witness :
    (∃ res, virtual_offset_to_physical exFs2 1 4 = .ok res ∧
      ((4 : Nat) - exChunk2.key.offset + 4, exD2.path) ∈ res) ∧
    (∃ res, virtual_offset_to_physical exFs3 3 4 = .ok res ∧
      ((4 : Nat) - exItem3.item.key.offset +
        (stripeAtL exChunkData3 0).offset, exD1.path) ∈ res) :=
  ⟨(claim_C3_theorem exFs2 1 4 (by decide) (by decide)).1 exChunk2 ⟨2, 4, []⟩ exD2
      (by decide) (by decide) rfl,
   (claim_C3_theorem exFs3 3 4 (by decide) (by decide)).2
      ⟨exItem3.item, exItem3.data, 7, 0⟩ (stripeAtL exChunkData3 0) exD1
      rfl (by decide) (by decide) (by decide) rfl⟩

/-! ### Key order facts -/

theorem cmp_key_lt_iff (l r : btrfs_disk_key) : cmp_key l r = .lt ↔
    (l.objectid < r.objectid ∨ (l.objectid = r.objectid ∧
      (l.item_type < r.item_type ∨ (l.item_type = r.item_type ∧ l.offset < r.offset)))) := by
  unfold cmp_key
  split_ifs <;> simp_all <;> omega

theorem cmp_key_gt_iff (l r : btrfs_disk_key) : cmp_key l r = .gt ↔
    (r.objectid < l.objectid ∨ (l.objectid = r.objectid ∧
      (r.item_type < l.item_type ∨ (l.item_type = r.item_type ∧ r.offset < l.offset)))) := by
  unfold cmp_key
  split_ifs <;> simp_all <;> omega

theorem cmp_key_eq_iff (l r : btrfs_disk_key) : cmp_key l r = .eq ↔ l = r := by
  obtain ⟨lo, lt, lof⟩ := l
  obtain ⟨ro, rt, rof⟩ := r
  unfold cmp_key
  simp only [btrfs_disk_key.mk.injEq]
  split_ifs <;> simp_all <;> omega

theorem cmp_key_not_gt_iff (l r : btrfs_disk_key) : cmp_key l r ≠ .gt ↔
    (l.objectid < r.objectid ∨ (l.objectid = r.objectid ∧
      (l.item_type < r.item_type ∨ (l.item_type = r.item_type ∧ l.offset ≤ r.offset)))) := by
  unfold cmp_key
  split_ifs <;> simp_all <;> omega

theorem cmp_key_not_lt_iff (l r : btrfs_disk_key) : cmp_key l r ≠ .lt ↔
    (r.objectid < l.objectid ∨ (l.objectid = r.objectid ∧
      (r.item_type < l.item_type ∨ (l.item_type = r.item_type ∧ r.offset ≤ l.offset)))) := by
  unfold cmp_key
  split_ifs <;> simp_all <;> omega

/-! ### Node view unfolding -/

theorem leafPeek_leaf (L : List LeafItem) (boff cur : Nat) :
    leafPeek ⟨.leaf L, boff, cur⟩ =
      (L.get? cur).map (fun li => ⟨li.item, li.data, boff, cur⟩) := by
  unfold leafPeek
  dsimp only [NodeBlock.leafItems]
  cases L.get? cur <;> rfl

theorem leafNext_leaf (L : List LeafItem) (boff cur : Nat) :
    leafNext ⟨.leaf L, boff, cur⟩ =
      (L.get? cur).map
        (fun li => (⟨li.item, li.data, boff, cur⟩, ⟨.leaf L, boff, cur + 1⟩)) := by
  unfold leafNext
  rw [leafPeek_leaf]
  cases L.get? cur <;> rfl

theorem internalPeek_eq (lvl : Nat) (kps : List btrfs_key_ptr) (boff cur : Nat) :
    internalPeek ⟨.internal lvl kps, boff, cur⟩ = kps.get? cur := by
  unfold internalPeek
  dsimp only [NodeBlock.keyPtrs]

theorem internalNext_eq (lvl : Nat) (kps : List btrfs_key_ptr) (boff cur : Nat) :
    internalNext ⟨.internal lvl kps, boff, cur⟩ =
      (kps.get? cur).map (fun kp => (kp, ⟨.internal lvl kps, boff, cur + 1⟩)) := by
  unfold internalNext
  rw [internalPeek_eq]
  cases kps.get? cur <;> rfl

/-! ### Scan bridges -/

theorem leafScanLoop_eq (opts : NodeSearchOption) (L : List LeafItem) (boff : Nat) :
    ∀ n cur, n = L.length - cur →
    leafScanLoop opts n ⟨.leaf L, boff, cur⟩ =
      match leafScanL opts (L.drop cur) with
      | .exh => .exhaust
      | .stop => .stopScan
      | .yld k li =>
          .yieldRes ⟨li.item, li.data, boff, cur + k⟩ ⟨.leaf L, boff, cur + k + 1⟩ := by
  intro n
  induction n with
  | zero =>
      intro cur h
      rw [List.drop_eq_nil_of_le (by omega)]
      rfl
  | succ n ih =>
      intro cur h
      have hcur : cur < L.length := by omega
      rw [List.drop_eq_getElem_cons hcur]
      have hget : L.get? cur = some L[cur] := by
        rw [List.get?_eq_getElem?, List.getElem?_eq_getElem hcur]
      unfold leafScanLoop
      rw [leafNext_leaf, hget]
      simp only [Option.map_some']
      have hpeek : leafPeek ⟨.leaf L, boff, cur + 1⟩ =
          (L.get? (cur + 1)).map (fun li => ⟨li.item, li.data, boff, cur + 1⟩) :=
        leafPeek_leaf L boff (cur + 1)
      match hc1 : cmp_key (L[cur]).item.key opts.min_key with
      | .gt =>
          dsimp only
          match hc2 : cmp_key (L[cur]).item.key opts.max_key with
          | .gt => dsimp only [leafScanL]; rw [hc1, hc2]
          | .lt => dsimp only [leafScanL]; rw [hc1, hc2]; rfl
          | .eq => dsimp only [leafScanL]; rw [hc1, hc2]; rfl
      | .eq => dsimp only [leafScanL]; rw [hc1]; rfl
      | .lt =>
          dsimp only
          rw [hpeek]
          match hnx : L.get? (cur + 1) with
          | none =>
              have : L.drop (cur + 1) = [] := by
                have : L.length ≤ cur + 1 := by
                  by_contra hlt
                  rw [List.get?_eq_getElem?, List.getElem?_eq_getElem (by omega)] at hnx
                  exact Option.noConfusion hnx
                exact List.drop_eq_nil_of_le this
              dsimp only [leafScanL]
              rw [hc1, this]
              rfl
          | some b =>
              have hdrop1 : L.drop (cur + 1) = b :: L.drop (cur + 2) := by
                have hlt : cur + 1 < L.length := by
                  by_contra hge
                  rw [List.get?_eq_getElem?, List.getElem?_eq_none (by omega)] at hnx
                  exact Option.noConfusion hnx
                rw [List.drop_eq_getElem_cons hlt]
                rw [List.get?_eq_getElem?, List.getElem?_eq_getElem hlt] at hnx
                injection hnx with hb
                rw [hb]
              dsimp only [leafScanL]
              rw [hc1, hdrop1]
              simp only [List.head?_cons]
              by_cases hgt : cmp_key b.item.key opts.min_key = .gt
              · rw [if_pos hgt]
                simp only [Option.map_some']
                rw [if_pos hgt]
                rfl
              · rw [if_neg hgt]
                simp only [Option.map_some']
                rw [if_neg hgt]
                have ihc := ih (cur + 1) (by omega)
                rw [← hdrop1] at *
                rw [ihc]
                rcases hrec : leafScanL opts (L.drop (cur + 1)) with _ | _ | ⟨k, li⟩
                · rfl
                · rfl
                · dsimp only
                  have h1 : cur + 1 + k = cur + (k + 1) := by omega
                  rw [h1]

/-! ### Order helper lemmas -/

theorem cmp_key_lt_trans {a b c : btrfs_disk_key}
    (h1 : cmp_key a b = .lt) (h2 : cmp_key b c = .lt) : cmp_key a c = .lt := by
  rw [cmp_key_lt_iff] at h1 h2 ⊢
  omega

theorem cmp_key_gt_of_gt_of_lt {a b m : btrfs_disk_key}
    (h1 : cmp_key a m = .gt) (h2 : cmp_key a b = .lt) : cmp_key b m = .gt := by
  rw [cmp_key_gt_iff] at h1 ⊢
  rw [cmp_key_lt_iff] at h2
  omega

theorem cmp_key_gt_of_eq_of_lt {a b m : btrfs_disk_key}
    (h1 : cmp_key a m = .eq) (h2 : cmp_key a b = .lt) : cmp_key b m = .gt := by
  rw [cmp_key_eq_iff] at h1
  subst h1
  rw [cmp_key_gt_iff]
  rw [cmp_key_lt_iff] at h2
  omega

theorem cmp_key_lt_of_lt_of_not_gt {a b m : btrfs_disk_key}
    (h1 : cmp_key a b = .lt) (h2 : cmp_key b m ≠ .gt) : cmp_key a m = .lt := by
  rw [cmp_key_lt_iff] at h1 ⊢
  rw [cmp_key_not_gt_iff] at h2
  omega

theorem cmp_key_not_gt_of_eq_of_not_gt {a mn mx : btrfs_disk_key}
    (h1 : cmp_key a mn = .eq) (h2 : cmp_key mn mx ≠ .gt) : cmp_key a mx ≠ .gt := by
  rw [cmp_key_eq_iff] at h1
  subst h1
  exact h2

theorem cmp_key_not_gt_of_lt_of_not_gt {a mn mx : btrfs_disk_key}
    (h1 : cmp_key a mn = .lt) (h2 : cmp_key mn mx ≠ .gt) : cmp_key a mx ≠ .gt := by
  rw [cmp_key_lt_iff] at h1
  rw [cmp_key_not_gt_iff] at h2 ⊢
  omega

theorem cmp_key_ne_lt_of_gt {a m : btrfs_disk_key} (h : cmp_key a m = .gt) :
    cmp_key a m ≠ .lt := by
  rw [h]
  decide

theorem cmp_key_ne_lt_of_eq {a m : btrfs_disk_key} (h : cmp_key a m = .eq) :
    cmp_key a m ≠ .lt := by
  rw [h]
  decide

theorem inRange_true_iff (opts : NodeSearchOption) (k : btrfs_disk_key) :
    inRange opts k = true ↔
      (cmp_key k opts.min_key ≠ .lt ∧ cmp_key k opts.max_key ≠ .gt) := by
  unfold inRange
  simp

theorem belowMin_true_iff (opts : NodeSearchOption) (li : LeafItem) :
    belowMin opts li = true ↔ cmp_key li.item.key opts.min_key = .lt := by
  unfold belowMin
  cases h : cmp_key li.item.key opts.min_key <;> decide

/-! ### Small list helpers -/

theorem head?_append_left {α : Type} (l₁ l₂ : List α) (h : l₁ ≠ []) :
    (l₁ ++ l₂).head? = l₁.head? := by
  cases l₁ with
  | nil => exact absurd rfl h
  | cons a t => rfl

theorem head?_dropWhile_not {α : Type} (p : α → Bool) :
    ∀ (l : List α) (x : α), (l.dropWhile p).head? = some x → ¬ p x := by
  intro l
  induction l with
  | nil => intro x h; exact Option.noConfusion h
  | cons a t ih =>
      intro x h
      by_cases ha : p a
      · rw [List.dropWhile_cons_of_pos ha] at h
        exact ih x h
      · rw [List.dropWhile_cons_of_neg ha] at h
        injection h with h
        subst h
        exact ha

theorem mem_of_takeWhile {α : Type} (p : α → Bool) :
    ∀ (l : List α) (x : α), x ∈ l.takeWhile p → x ∈ l := by
  intro l
  induction l with
  | nil => intro x h; simp at h
  | cons a t ih =>
      intro x h
      by_cases ha : p a
      · rw [List.takeWhile_cons_of_pos ha] at h
        rcases List.mem_cons.mp h with h | h
        · simp [h]
        · simp [ih x h]
      · rw [List.takeWhile_cons_of_neg ha] at h
        simp at h

theorem takeWhile_append_all {α : Type} (p : α → Bool) :
    ∀ (l₁ l₂ : List α), (∀ a ∈ l₁, p a = true) →
    (l₁ ++ l₂).takeWhile p = l₁ ++ l₂.takeWhile p := by
  intro l₁
  induction l₁ with
  | nil => intro l₂ _; rfl
  | cons a t ih =>
      intro l₂ hall
      rw [List.cons_append, List.takeWhile_cons_of_pos (hall a (by simp)),
        ih l₂ (fun x hx => hall x (by simp [hx])), List.cons_append]

theorem dropWhile_append_all {α : Type} (p : α → Bool) :
    ∀ (l₁ l₂ : List α), (∀ a ∈ l₁, p a = true) →
    (l₁ ++ l₂).dropWhile p = l₂.dropWhile p := by
  intro l₁
  induction l₁ with
  | nil => intro l₂ _; rfl
  | cons a t ih =>
      intro l₂ hall
      rw [List.cons_append, List.dropWhile_cons_of_pos (hall a (by simp)),
        ih l₂ (fun x hx => hall x (by simp [hx]))]

theorem mem_head_or_keyLt {l : List LeafItem} (hp : l.Pairwise keyLt)
    {h0 li : LeafItem} (hh : l.head? = some h0) (hm : li ∈ l) :
    li = h0 ∨ keyLt h0 li := by
  cases l with
  | nil => exact Option.noConfusion hh
  | cons a t =>
      injection hh with hh
      subst hh
      rcases List.mem_cons.mp hm with h | h
      · left; exact h
      · right; exact (List.pairwise_cons.mp hp).1 li h

theorem all_gt_of_head_gt {opts : NodeSearchOption} {l : List LeafItem}
    (hp : l.Pairwise keyLt) {h0 : LeafItem} (hh : l.head? = some h0)
    (hmin : cmp_key h0.item.key opts.min_key = .gt) :
    ∀ li ∈ l, cmp_key li.item.key opts.min_key = .gt := by
  intro li hm
  rcases mem_head_or_keyLt hp hh hm with h | h
  · rw [h]; exact hmin
  · exact cmp_key_gt_of_gt_of_lt hmin h

/-! ### The entry scan bridge -/

theorem findKeyScan_eq (opts : NodeSearchOption) (lvl : Nat)
    (kps : List btrfs_key_ptr) (boff : Nat) :
    ∀ n cur, n = kps.length - cur →
    findKeyScan opts n ⟨.internal lvl kps, boff, cur⟩ =
      match scanL opts (kps.drop cur) with
      | .exh => .exhausted
      | .out => .outOfRange
      | .desc k kp => .descend ⟨.internal lvl kps, boff, cur + k + 1⟩ kp.blockptr := by
  intro n
  induction n with
  | zero =>
      intro cur h
      rw [List.drop_eq_nil_of_le (by omega)]
      rfl
  | succ n ih =>
      intro cur h
      have hcur : cur < kps.length := by omega
      rw [List.drop_eq_getElem_cons hcur]
      have hget : kps.get? cur = some kps[cur] := by
        rw [List.get?_eq_getElem?, List.getElem?_eq_getElem hcur]
      unfold findKeyScan
      rw [internalNext_eq, hget]
      simp only [Option.map_some']
      have hpeek : internalPeek ⟨.internal lvl kps, boff, cur + 1⟩ = kps.get? (cur + 1) :=
        internalPeek_eq lvl kps boff (cur + 1)
      match hc1 : cmp_key (kps[cur]).key opts.min_key with
      | .gt =>
          dsimp only
          match hc2 : cmp_key (kps[cur]).key opts.max_key with
          | .gt => dsimp only [scanL]; try rw [hc1, hc2]; try rfl
          | .lt => dsimp only [scanL]; try rw [hc1, hc2]; try rfl
          | .eq => dsimp only [scanL]; try rw [hc1, hc2]; try rfl
      | .eq => dsimp only [scanL]; try rw [hc1]; try rfl
      | .lt =>
          dsimp only
          rw [hpeek]
          match hnx : kps.get? (cur + 1) with
          | none =>
              have hd1 : kps.drop (cur + 1) = [] := by
                have : kps.length ≤ cur + 1 := by
                  by_contra hlt
                  rw [List.get?_eq_getElem?, List.getElem?_eq_getElem (by omega)] at hnx
                  exact Option.noConfusion hnx
                exact List.drop_eq_nil_of_le this
              dsimp only [scanL]
              rw [hc1, hd1]
              rfl
          | some b =>
              have hdrop1 : kps.drop (cur + 1) = b :: kps.drop (cur + 2) := by
                have hlt : cur + 1 < kps.length := by
                  by_contra hge
                  rw [List.get?_eq_getElem?, List.getElem?_eq_none (by omega)] at hnx
                  exact Option.noConfusion hnx
                rw [List.drop_eq_getElem_cons hlt]
                rw [List.get?_eq_getElem?, List.getElem?_eq_getElem hlt] at hnx
                injection hnx with hb
                rw [hb]
              dsimp only [scanL]
              rw [hc1, hdrop1]
              simp only [List.head?_cons]
              by_cases hgt : cmp_key b.key opts.min_key = .gt
              · rw [if_pos hgt]
                rw [if_pos hgt]
                try rfl
              · rw [if_neg hgt]
                rw [if_neg hgt]
                have ihc := ih (cur + 1) (by omega)
                rw [← hdrop1] at *
                rw [ihc]
                rcases hrec : scanL opts (kps.drop (cur + 1)) with _ | _ | ⟨k, kp⟩
                · rfl
                · rfl
                · dsimp only
                  have h1 : cur + 1 + k = cur + (k + 1) := by omega
                  rw [h1]

/-! ### Leaf window scan characterization -/

theorem leafScanL_head_eq (opts : NodeSearchOption) (b : LeafItem) (tl : List LeafItem)
    (h : cmp_key b.item.key opts.min_key = .eq) :
    leafScanL opts (b :: tl) = .yld 0 b := by
  unfold leafScanL
  rw [h]

theorem leafScanL_head_gt (opts : NodeSearchOption) (b : LeafItem) (tl : List LeafItem)
    (h : cmp_key b.item.key opts.min_key = .gt) :
    leafScanL opts (b :: tl) =
      if cmp_key b.item.key opts.max_key = .gt then .stop else .yld 0 b := by
  unfold leafScanL
  rw [h]
  dsimp only
  rcases hm : cmp_key b.item.key opts.max_key with _ | _ | _
  · rw [if_neg (by decide)]
  · rw [if_neg (by decide)]
  · rw [if_pos rfl]

theorem leafScanL_all_lt (opts : NodeSearchOption) :
    ∀ (l : List LeafItem) (hne : l ≠ []),
    (∀ li ∈ l, cmp_key li.item.key opts.min_key = .lt) →
    leafScanL opts l = .yld (l.length - 1) (l.getLast hne) := by
  intro l
  induction l with
  | nil => intro hne; exact absurd rfl hne
  | cons a t ih =>
      intro hne hall
      cases t with
      | nil =>
          unfold leafScanL
          rw [hall a (by simp)]
          rfl
      | cons b t2 =>
          have hb : cmp_key b.item.key opts.min_key = .lt := hall b (by simp)
          unfold leafScanL
          rw [hall a (by simp)]
          dsimp only
          simp only [List.head?_cons]
          rw [if_neg (by rw [hb]; decide)]
          rw [ih (by simp) (fun li hli => hall li (by simp [hli]))]
          rfl

theorem leafScanL_mixed (opts : NodeSearchOption) :
    ∀ (A : List LeafItem) (hA : A ≠ []) (B : List LeafItem) (b : LeafItem),
    (∀ li ∈ A, cmp_key li.item.key opts.min_key = .lt) →
    B.head? = some b →
    (cmp_key b.item.key opts.min_key = .gt →
      leafScanL opts (A ++ B) = .yld (A.length - 1) (A.getLast hA)) ∧
    (cmp_key b.item.key opts.min_key = .eq →
      leafScanL opts (A ++ B) = .yld A.length b) := by
  intro A
  induction A with
  | nil => intro hA; exact absurd rfl hA
  | cons a t ih =>
      intro hA B b hall hB
      cases t with
      | nil =>
          rcases B with _ | ⟨b0, Btl⟩
          · exact Option.noConfusion hB
          injection hB with hB
          subst hB
          constructor
          · intro hgt
            rw [List.singleton_append]
            unfold leafScanL
            rw [hall a (by simp)]
            dsimp only
            simp only [List.head?_cons]
            rw [if_pos hgt]
            rfl
          · intro heq
            rw [List.singleton_append]
            unfold leafScanL
            rw [hall a (by simp)]
            dsimp only
            simp only [List.head?_cons]
            rw [if_neg (by rw [heq]; decide)]
            rw [leafScanL_head_eq opts b0 Btl heq]
            rfl
      | cons a2 t2 =>
          have ha2 : cmp_key a2.item.key opts.min_key = .lt := hall a2 (by simp)
          have ihc := ih (by simp) B b (fun li hli => hall li (by simp [hli])) hB
          constructor
          · intro hgt
            rw [List.cons_append]
            unfold leafScanL
            rw [hall a (by simp)]
            dsimp only
            rw [List.cons_append, List.head?_cons]
            dsimp only
            rw [if_neg (by rw [ha2]; decide)]
            rw [← List.cons_append, ihc.1 hgt]
            rfl
          · intro heq
            rw [List.cons_append]
            unfold leafScanL
            rw [hall a (by simp)]
            dsimp only
            rw [List.cons_append, List.head?_cons]
            dsimp only
            rw [if_neg (by rw [ha2]; decide)]
            rw [← List.cons_append, ihc.2 heq]
            rfl

/-! ### Well-formed subtree helpers -/

theorem GoodNode_ne (fs : FsInfo) :
    ∀ lvl addr C, GoodNode fs addr lvl C → C ≠ [] := by
  intro lvl
  induction lvl with
  | zero =>
      intro addr C hg
      cases hg with
      | leaf _ _ _ hne => exact hne
      | internal _ _ _ _ _ hpos _ _ _ _ => exact absurd hpos (by omega)
  | succ l ihl =>
      intro addr C hg
      cases hg with
      | internal _ _ kps childItems _ _ hne hlen hchild _ =>
          cases childItems with
          | nil =>
              cases kps with
              | nil => exact absurd rfl hne
              | cons _ _ => exact absurd hlen (by simp)
          | cons C0 Ct =>
              have h0 : C0 ≠ [] := by
                have hg0 := hchild 0 (by simp [hlen]) (by simp)
                exact ihl _ _ hg0
              rw [List.flatten_cons]
              intro hx
              exact h0 (List.append_eq_nil.mp hx).1

theorem GoodNode_node (fs : FsInfo) {addr lvl : Nat} {C : List LeafItem}
    (hg : GoodNode fs addr lvl C) :
    ∃ blk, fs.nodes addr = some blk ∧ blk.level = lvl := by
  cases hg with
  | leaf _ _ hnode _ => exact ⟨_, hnode, rfl⟩
  | internal _ _ _ _ hnode _ _ _ _ _ => exact ⟨_, hnode, rfl⟩

theorem goodForall₂ (fs : FsInfo) (lvl : Nat) (kps : List btrfs_key_ptr)
    (CLs : List (List LeafItem))
    (hlen : kps.length = CLs.length)
    (hchild : ∀ i (h1 : i < kps.length) (h2 : i < CLs.length),
      GoodNode fs (kps.get ⟨i, h1⟩).blockptr lvl (CLs.get ⟨i, h2⟩))
    (hhead : ∀ i (h1 : i < kps.length) (h2 : i < CLs.length),
      (CLs.get ⟨i, h2⟩).head?.map (fun li => li.item.key) = some (kps.get ⟨i, h1⟩).key) :
    List.Forall₂ (fun kp C => GoodNode fs kp.blockptr lvl C ∧
      C.head?.map (fun li => li.item.key) = some kp.key) kps CLs := by
  rw [List.forall₂_iff_get]
  exact ⟨hlen, fun i h1 h2 => ⟨hchild i h1 h2, hhead i h1 h2⟩⟩

theorem popToParent_none_of_nil (fs : FsInfo) (d : Nat) :
    ∀ stack rest, StackInv fs d stack rest → rest = [] → popToParent stack = none := by
  intro stack rest hinv
  induction hinv with
  | nil => intro _; rfl
  | cons level kps boff cur CLs stack restBelow hpos hd hmatch htail ih =>
      intro hr
      have hCn : CLs = [] := by
        rcases CLs with _ | ⟨C0, Ct⟩
        · rfl
        · exfalso
          rcases hk : kps.drop cur with _ | ⟨kp0, ktl⟩ <;> rw [hk] at hmatch
          · cases hmatch
          · rcases hmatch with _ | ⟨⟨hg0, _⟩, _⟩
            have h0 : C0 ≠ [] := GoodNode_ne fs _ _ _ hg0
            rw [List.flatten_cons] at hr
            exact h0 (List.append_eq_nil.mp ((List.append_eq_nil.mp hr).1)).1
      subst hCn
      have hkn : kps.drop cur = [] := by
        rcases hk : kps.drop cur with _ | ⟨kp0, ktl⟩
        · rfl
        · rw [hk] at hmatch
          cases hmatch
      unfold popToParent
      rw [internalPeek_eq]
      have hnone : kps.get? cur = none := by
        rw [List.get?_eq_getElem?, List.getElem?_eq_none]
        have := congrArg List.length hkn
        simp at this
        omega
      rw [hnone]
      simp only [Option.isSome_none, Bool.false_eq_true, if_false]
      exact ih (by simpa using hr)

theorem descendLeftmost_spec (fs : FsInfo) (d : Nat) :
    ∀ lvl addr C blk, GoodNode fs addr lvl C → fs.nodes addr = some blk →
    ∀ stack below, StackInv fs d stack below → lvl ≤ d →
    ∀ fuel, lvl + 1 ≤ fuel →
    ∃ stack' L boff rest, C = L ++ rest ∧ L ≠ [] ∧
      descendLeftmost fs fuel stack ⟨blk, addr, 0⟩ = some (stack', ⟨.leaf L, boff, 0⟩) ∧
      StackInv fs d stack' (rest ++ below) := by
  intro lvl
  induction lvl with
  | zero =>
      intro addr C blk hg hnode stack below hinv hd fuel hfuel
      cases hg with
      | leaf _ _ hnode2 hne =>
          have hblk : blk = .leaf C := by
            rw [hnode] at hnode2
            exact Option.some.inj hnode2
          subst hblk
          obtain ⟨f2, rfl⟩ : ∃ f2, fuel = f2 + 1 := ⟨fuel - 1, by omega⟩
          exact ⟨stack, C, addr, [], by simp, hne, rfl, by simpa using hinv⟩
      | internal _ _ _ _ _ hpos _ _ _ _ => exact absurd hpos (by omega)
  | succ l ihl =>
      intro addr C blk hg hnode stack below hinv hd fuel hfuel
      cases hg with
      | internal _ _ kps childItems hnode2 hpos hne hlen hchild hhead =>
          have hblk : blk = .internal (l + 1) kps := by
            rw [hnode] at hnode2
            exact Option.some.inj hnode2
          subst hblk
          obtain ⟨f2, rfl⟩ : ∃ f2, fuel = f2 + 1 := ⟨fuel - 1, by omega⟩
          rcases kps with _ | ⟨kp0, ktl⟩
          · exact absurd rfl hne
          rcases childItems with _ | ⟨C0, Ct⟩
          · exact absurd hlen (by simp)
          have hg0 : GoodNode fs kp0.blockptr l C0 := hchild 0 (by simp) (by simp)
          obtain ⟨cblk, hcnode, _⟩ := GoodNode_node fs hg0
          have hf2 : List.Forall₂ (fun kp C => GoodNode fs kp.blockptr l C ∧
              C.head?.map (fun li => li.item.key) = some kp.key) (kp0 :: ktl) (C0 :: Ct) :=
            goodForall₂ fs l (kp0 :: ktl) (C0 :: Ct) hlen
              (fun i h1 h2 => hchild i h1 h2) (fun i h1 h2 => hhead i h1 h2)
          have htl : List.Forall₂ (fun kp C => GoodNode fs kp.blockptr l C ∧
              C.head?.map (fun li => li.item.key) = some kp.key) ktl Ct := by
            rcases hf2 with _ | ⟨_, h⟩
            exact h
          have hinv2 : StackInv fs d
              (⟨.internal (l + 1) (kp0 :: ktl), addr, 1⟩ :: stack)
              (Ct.flatten ++ below) :=
            StackInv.cons (l + 1) (kp0 :: ktl) addr 1 Ct stack below (by omega) hd htl hinv
          obtain ⟨stack', L, boff, rest, hCL, hLne, hrun, hinv3⟩ :=
            ihl kp0.blockptr C0 cblk hg0 hcnode _ _ hinv2 (by omega) f2 (by omega)
          refine ⟨stack', L, boff, rest ++ Ct.flatten, ?_, hLne, ?_, ?_⟩
          · rw [List.flatten_cons, hCL, List.append_assoc]
          · unfold descendLeftmost
            try dsimp only [NodeBlock.level]
            rw [if_pos (by omega)]
            rw [internalNext_eq]
            have hq : (kp0 :: ktl).get? 0 = some kp0 := rfl
            rw [hq]
            simp only [Option.map_some']
            try dsimp only
            unfold btrfs_internal_node
            rw [hcnode]
            simp only [Option.map_some']
            exact hrun
          · rw [List.append_assoc]
            exact hinv3

theorem stack_next_leaf (fs : FsInfo) (d : Nat) :
    ∀ stack rest, StackInv fs d stack rest → rest ≠ [] →
    ∀ fuel, d + 1 ≤ fuel →
    ∃ top stack2 stack' L boff rest',
      popToParent stack = some (top, stack2) ∧
      rest = L ++ rest' ∧ L ≠ [] ∧
      descendLeftmost fs fuel stack2 top = some (stack', ⟨.leaf L, boff, 0⟩) ∧
      StackInv fs d stack' rest' := by
  intro stack rest hinv
  induction hinv with
  | nil => intro h; exact absurd rfl h
  | cons level kps boff0 cur CLs stack restBelow hpos hd hmatch htail ih =>
      intro hne fuel hfuel
      rcases hk : kps.drop cur with _ | ⟨kp0, ktl⟩
      · rw [hk] at hmatch
        have hCn : CLs = [] := by
          rcases CLs with _ | ⟨C0, Ct⟩
          · rfl
          · cases hmatch
        subst hCn
        have hrb : restBelow ≠ [] := by simpa using hne
        obtain ⟨top, stack2, stack', L, boff, rest', h1, h2, h3, h4, h5⟩ :=
          ih hrb fuel hfuel
        refine ⟨top, stack2, stack', L, boff, rest', ?_, by simpa using h2, h3, h4, h5⟩
        unfold popToParent
        rw [internalPeek_eq]
        have hnone : kps.get? cur = none := by
          rw [List.get?_eq_getElem?, List.getElem?_eq_none]
          have := congrArg List.length hk
          simp at this
          omega
        rw [hnone]
        simp only [Option.isSome_none, Bool.false_eq_true, if_false]
        exact h1
      · rw [hk] at hmatch
        rcases hmatch with _ | ⟨⟨hg0, hh0⟩, hm2⟩
        rename_i C0 Ct
        have hpeek : kps.get? cur = some kp0 := by
          have h1 : cur < kps.length := by
            by_contra hx
            rw [List.drop_eq_nil_of_le (by omega)] at hk
            exact List.noConfusion hk
          rw [List.get?_eq_getElem?, List.getElem?_eq_getElem h1]
          have h2 := List.drop_eq_getElem_cons h1
          rw [h2] at hk
          injection hk with h3 _
          rw [h3]
        obtain ⟨cblk, hcnode, _⟩ := GoodNode_node fs hg0
        obtain ⟨f2, rfl⟩ : ∃ f2, fuel = f2 + 1 := ⟨fuel - 1, by omega⟩
        have hktl : kps.drop (cur + 1) = ktl := by
          rw [← List.tail_drop, hk]
          rfl
        have hinv2 : StackInv fs d
            (⟨.internal level kps, boff0, cur + 1⟩ :: stack)
            (Ct.flatten ++ restBelow) :=
          StackInv.cons level kps boff0 (cur + 1) Ct stack restBelow hpos hd
            (by rw [hktl]; exact hm2) htail
        obtain ⟨stack', L, boff, rest'', hCL, hLne, hrun, hinv3⟩ :=
          descendLeftmost_spec fs d (level - 1) kp0.blockptr C0 cblk hg0 hcnode _ _
            hinv2 (by omega) f2 (by omega)
        refine ⟨⟨.internal level kps, boff0, cur⟩, stack, stack', L, boff,
          rest'' ++ (Ct.flatten ++ restBelow), ?_, ?_, hLne, ?_, hinv3⟩
        · unfold popToParent
          rw [internalPeek_eq, hpeek]
          rfl
        · rw [List.flatten_cons, hCL]
          simp [List.append_assoc]
        · unfold descendLeftmost
          try dsimp only [NodeBlock.level]
          rw [if_pos (by omega)]
          rw [internalNext_eq, hpeek]
          simp only [Option.map_some']
          try dsimp only
          unfold btrfs_internal_node
          rw [hcnode]
          simp only [Option.map_some']
          exact hrun

theorem cmp_key_not_gt_trans {a b c : btrfs_disk_key}
    (h1 : cmp_key a b ≠ .gt) (h2 : cmp_key b c ≠ .gt) : cmp_key a c ≠ .gt := by
  rw [cmp_key_not_gt_iff] at h1 h2 ⊢
  omega

theorem head_of_rel {C : List LeafItem} {k : btrfs_disk_key}
    (h : C.head?.map (fun li => li.item.key) = some k) :
    ∃ b, C.head? = some b ∧ b.item.key = k := by
  rcases C with _ | ⟨x, xs⟩
  · simp at h
  · refine ⟨x, rfl, ?_⟩
    simpa using h

theorem mem_of_head? {α : Type} {l : List α} {x : α} (h : l.head? = some x) : x ∈ l := by
  rcases l with _ | ⟨a, t⟩
  · exact Option.noConfusion h
  · injection h with h
    subst h
    simp

theorem scan_split (fs : FsInfo) (lvl : Nat) (opts : NodeSearchOption)
    (hminmax : cmp_key opts.min_key opts.max_key ≠ .gt) :
    ∀ (kps : List btrfs_key_ptr) (CLs : List (List LeafItem)),
    List.Forall₂ (fun kp C => GoodNode fs kp.blockptr lvl C ∧
      C.head?.map (fun li => li.item.key) = some kp.key) kps CLs →
    kps ≠ [] →
    CLs.flatten.Pairwise keyLt →
    (∀ kp0, kps.head? = some kp0 → cmp_key kp0.key opts.max_key ≠ .gt) →
    ∃ SK kp KT CS C CT,
      kps = SK ++ kp :: KT ∧ CLs = CS ++ C :: CT ∧ SK.length = CS.length ∧
      scanL opts kps = .desc SK.length kp ∧
      GoodNode fs kp.blockptr lvl C ∧
      C.head?.map (fun li => li.item.key) = some kp.key ∧
      List.Forall₂ (fun kp C => GoodNode fs kp.blockptr lvl C ∧
        C.head?.map (fun li => li.item.key) = some kp.key) KT CT ∧
      cmp_key kp.key opts.max_key ≠ .gt ∧
      (CS ≠ [] → cmp_key kp.key opts.min_key ≠ .gt) ∧
      (∀ li ∈ CS.flatten, cmp_key li.item.key opts.min_key = .lt) ∧
      (∀ li ∈ CT.flatten, cmp_key li.item.key opts.min_key = .gt) := by
  intro kps
  induction kps with
  | nil => intro CLs _ hne; exact absurd rfl hne
  | cons kp0 ktl ih =>
      intro CLs hf _ hsort hmax
      rcases hf with _ | ⟨⟨hg0, hh0⟩, hf2⟩
      rename_i C0 Ct
      have hC0ne : C0 ≠ [] := GoodNode_ne fs _ _ _ hg0
      obtain ⟨h0item, hh0some, hkey0⟩ := head_of_rel hh0
      have hmax0 : cmp_key kp0.key opts.max_key ≠ .gt := hmax kp0 rfl
      rw [List.flatten_cons] at hsort
      have hsortparts := List.pairwise_append.mp hsort
      rcases hc0 : cmp_key kp0.key opts.min_key with _ | _ | _
      · -- head entry below the minimum
        rcases ktl with _ | ⟨kp1, ktl2⟩
        · -- single entry: descend into it
          have hCt : Ct = [] := by
            cases hf2
            rfl
          subst hCt
          refine ⟨[], kp0, [], [], C0, [], rfl, rfl, rfl, ?_, hg0, hh0,
            List.Forall₂.nil, hmax0, fun h => absurd rfl h,
            fun li h => by simp at h, fun li h => by simp at h⟩
          unfold scanL
          rw [hc0]
          rfl
        · rcases hf2 with _ | ⟨⟨hg1, hh1⟩, hf3⟩
          rename_i C1 Ct2
          obtain ⟨b1, hb1some, hb1key⟩ := head_of_rel hh1
          have hb1mem : b1 ∈ (C1 :: Ct2).flatten :=
            List.mem_flatten.mpr ⟨C1, by simp, mem_of_head? hb1some⟩
          by_cases hc1g : cmp_key kp1.key opts.min_key = .gt
          · -- next entry beyond the minimum: descend into the head entry
            refine ⟨[], kp0, kp1 :: ktl2, [], C0, C1 :: Ct2, rfl, rfl, rfl, ?_,
              hg0, hh0, List.Forall₂.cons ⟨hg1, hh1⟩ hf3, hmax0,
              fun h => absurd rfl h, fun li h => by simp at h, ?_⟩
            · unfold scanL
              rw [hc0]
              dsimp only
              simp only [List.head?_cons]
              rw [if_pos hc1g]
              rfl
            · intro li hli
              have hb1gt : cmp_key b1.item.key opts.min_key = .gt := by
                rw [hb1key]
                exact hc1g
              have hhead : ((C1 :: Ct2).flatten).head? = some b1 := by
                rw [List.flatten_cons]
                rw [head?_append_left _ _ (GoodNode_ne fs _ _ _ hg1)]
                exact hb1some
              exact all_gt_of_head_gt hsortparts.2.1 hhead hb1gt li hli
          · -- next entry still at or below the minimum: skip the head entry
            have hmax1 : ∀ kp', (kp1 :: ktl2).head? = some kp' →
                cmp_key kp'.key opts.max_key ≠ .gt := by
              intro kp' hkp'
              injection hkp' with hkp'
              subst hkp'
              exact cmp_key_not_gt_trans hc1g hminmax
            have hrec := ih (C1 :: Ct2) (List.Forall₂.cons ⟨hg1, hh1⟩ hf3) (by simp)
              hsortparts.2.1 hmax1
            obtain ⟨SK', kp, KT, CS', C, CT, hk1, hk2, hlen', hscan, hgN, hhN,
              hfN, hmaxN, hminN, hCSf, hCTf⟩ := hrec
            refine ⟨kp0 :: SK', kp, KT, C0 :: CS', C, CT, by rw [hk1, List.cons_append],
              by rw [hk2, List.cons_append], by simp [hlen'], ?_, hgN, hhN, hfN,
              hmaxN, ?_, ?_, hCTf⟩
            · unfold scanL
              rw [hc0]
              dsimp only
              simp only [List.head?_cons]
              rw [if_neg hc1g]
              rw [hscan]
              rfl
            · intro _
              rcases hCS' : CS' with _ | ⟨x, xs⟩
              · have hSK : SK' = [] := by
                  rw [hCS'] at hlen'
                  simpa using List.length_eq_zero.mp (by simpa using hlen')
                rw [hSK] at hk1
                simp only [List.nil_append] at hk1
                have : kp1 = kp := (List.cons.injEq _ _ _ _ ▸ hk1).1
                rw [← this]
                exact hc1g
              · exact hminN (by rw [hCS']; simp)
            · intro li hli
              rw [List.flatten_cons] at hli
              rcases List.mem_append.mp hli with h | h
              · have hlt : keyLt li b1 := hsortparts.2.2 li h b1 hb1mem
                have hb1le : cmp_key b1.item.key opts.min_key ≠ .gt := by
                  rw [hb1key]
                  exact hc1g
                exact cmp_key_lt_of_lt_of_not_gt hlt hb1le
              · exact hCSf li h
      · -- head entry equals the minimum: descend into it
        refine ⟨[], kp0, ktl, [], C0, Ct, rfl, rfl, rfl, ?_, hg0, hh0, hf2, hmax0,
          fun h => absurd rfl h, fun li h => by simp at h, ?_⟩
        · unfold scanL
          rw [hc0]
          rfl
        · intro li hli
          have h0eq : cmp_key h0item.item.key opts.min_key = .eq := by
            rw [hkey0]
            exact hc0
          exact cmp_key_gt_of_eq_of_lt h0eq
            (hsortparts.2.2 h0item (mem_of_head? hh0some) li hli)
      · -- head entry beyond the minimum: descend into it (it is within max)
        refine ⟨[], kp0, ktl, [], C0, Ct, rfl, rfl, rfl, ?_, hg0, hh0, hf2, hmax0,
          fun h => absurd rfl h, fun li h => by simp at h, ?_⟩
        · unfold scanL
          rw [hc0]
          dsimp only
          rcases hm : cmp_key kp0.key opts.max_key with _ | _ | _
          · rfl
          · rfl
          · exact absurd hm hmax0
        · intro li hli
          have h0gt : cmp_key h0item.item.key opts.min_key = .gt := by
            rw [hkey0]
            exact hc0
          exact cmp_key_gt_of_gt_of_lt h0gt
            (hsortparts.2.2 h0item (mem_of_head? hh0some) li hli)

theorem findKeyLoop_spec (fs : FsInfo) (d : Nat) (opts : NodeSearchOption)
    (hminmax : cmp_key opts.min_key opts.max_key ≠ .gt) :
    ∀ lvl addr C blk, GoodNode fs addr lvl C → fs.nodes addr = some blk →
    ∀ stack below, StackInv fs d stack below → lvl ≤ d →
    C.Pairwise keyLt →
    (∀ b, C.head? = some b → cmp_key b.item.key opts.max_key ≠ .gt) →
    ∀ fuel, lvl + 1 ≤ fuel →
    ∃ stack' Lf boff before rest,
      C = before ++ Lf ++ rest ∧ Lf ≠ [] ∧
      (∀ li ∈ before, cmp_key li.item.key opts.min_key = .lt) ∧
      (∀ li ∈ rest, cmp_key li.item.key opts.min_key = .gt) ∧
      (∀ b, Lf.head? = some b → before ≠ [] → cmp_key b.item.key opts.min_key ≠ .gt) ∧
      findKeyLoop fs opts fuel stack ⟨blk, addr, 0⟩ = some (stack', ⟨.leaf Lf, boff, 0⟩) ∧
      StackInv fs d stack' (rest ++ below) := by
  intro lvl
  induction lvl with
  | zero =>
      intro addr C blk hg hnode stack below hinv hd hsort hmax fuel hfuel
      cases hg with
      | leaf _ _ hnode2 hne =>
          have hblk : blk = .leaf C := by
            rw [hnode] at hnode2
            exact Option.some.inj hnode2
          subst hblk
          obtain ⟨f2, rfl⟩ : ∃ f2, fuel = f2 + 1 := ⟨fuel - 1, by omega⟩
          refine ⟨stack, C, addr, [], [], by simp, hne, by simp, by simp, ?_, rfl,
            by simpa using hinv⟩
          intro b _ h
          exact absurd rfl h
      | internal _ _ _ _ _ hpos _ _ _ _ => exact absurd hpos (by omega)
  | succ l ihl =>
      intro addr C blk hg hnode stack below hinv hd hsort hmax fuel hfuel
      cases hg with
      | internal _ _ kps childItems hnode2 hpos hne hlen hchild hhead =>
          have hblk : blk = .internal (l + 1) kps := by
            rw [hnode] at hnode2
            exact Option.some.inj hnode2
          subst hblk
          obtain ⟨f2, rfl⟩ : ∃ f2, fuel = f2 + 1 := ⟨fuel - 1, by omega⟩
          have hforall := goodForall₂ fs l kps childItems hlen
            (fun i h1 h2 => hchild i h1 h2) (fun i h1 h2 => hhead i h1 h2)
          rcases hforall with _ | ⟨⟨hg0, hh0⟩, hf2⟩
          · exact absurd rfl hne
          rename_i kp0 C0 ktl Ct
          have hmaxk : ∀ kp', (kp0 :: ktl).head? = some kp' →
              cmp_key kp'.key opts.max_key ≠ .gt := by
            intro kp' hkp'
            injection hkp' with hkp'
            subst hkp'
            obtain ⟨b0, hb0some, hb0key⟩ := head_of_rel hh0
            have hb0C : ((C0 :: Ct).flatten).head? = some b0 := by
              rw [List.flatten_cons, head?_append_left _ _ (GoodNode_ne fs _ _ _ hg0)]
              exact hb0some
            have hx := hmax b0 hb0C
            rw [hb0key] at hx
            exact hx
          obtain ⟨SK, kp, KT, CS, Cc, CT, hks, hcs, hlensk, hscan, hgN, hhN, hfN,
            hmaxN, hminN, hCSf, hCTf⟩ :=
            scan_split fs l opts hminmax (kp0 :: ktl) (C0 :: Ct)
              (List.Forall₂.cons ⟨hg0, hh0⟩ hf2) (by simp) hsort hmaxk
          obtain ⟨cblk, hcnode, _⟩ := GoodNode_node fs hgN
          have hsort2 : List.Pairwise keyLt ((CS ++ Cc :: CT).flatten) := by
            rw [← hcs]
            exact hsort
          rw [List.flatten_append, List.flatten_cons] at hsort2
          have hp1 := List.pairwise_append.mp hsort2
          have hp2 := List.pairwise_append.mp hp1.2.1
          have hmaxc : ∀ b, Cc.head? = some b → cmp_key b.item.key opts.max_key ≠ .gt := by
            intro b hb
            rw [hb] at hhN
            have hbk : b.item.key = kp.key := by simpa using hhN
            rw [hbk]
            exact hmaxN
          have hdropSK : (kp0 :: ktl).drop (SK.length + 1) = KT := by
            rw [hks, ← List.drop_drop, List.drop_left]
            rfl
          have hinv2 : StackInv fs d
              (⟨.internal (l + 1) (kp0 :: ktl), addr, SK.length + 1⟩ :: stack)
              (CT.flatten ++ below) :=
            StackInv.cons (l + 1) (kp0 :: ktl) addr (SK.length + 1) CT stack below
              (by omega) hd (by rw [hdropSK]; exact hfN) hinv
          obtain ⟨stack', Lf, boff, before', rest', hCL, hLfne, hbef', hrest',
            hbhead', hrun, hinv3⟩ :=
            ihl kp.blockptr Cc cblk hgN hcnode _ _ hinv2 (by omega) hp2.1 hmaxc f2 (by omega)
          refine ⟨stack', Lf, boff, CS.flatten ++ before', rest' ++ CT.flatten,
            ?_, hLfne, ?_, ?_, ?_, ?_, ?_⟩
          · rw [hcs, List.flatten_append, List.flatten_cons, hCL]
            simp [List.append_assoc]
          · intro li hli
            rcases List.mem_append.mp hli with h | h
            · exact hCSf li h
            · exact hbef' li h
          · intro li hli
            rcases List.mem_append.mp hli with h | h
            · exact hrest' li h
            · exact hCTf li h
          · intro b hb hbne
            rcases hbefx : before' with _ | ⟨x, xs⟩
            · have hCc : Cc = Lf ++ rest' := by
                rw [hCL, hbefx]
                rfl
              have hheadCc : Cc.head? = some b := by
                rw [hCc, head?_append_left _ _ hLfne, hb]
              rw [hheadCc] at hhN
              have hbkey : b.item.key = kp.key := by simpa using hhN
              have hCSne : CS ≠ [] := by
                intro hx
                rw [hbefx, hx] at hbne
                simp at hbne
              rw [hbkey]
              exact hminN hCSne
            · exact hbhead' b hb (by rw [hbefx]; simp)
          · show findKeyLoop fs opts (f2 + 1) stack
                ⟨.internal (l + 1) (kp0 :: ktl), addr, 0⟩ = _
            unfold findKeyLoop
            try dsimp only [NodeBlock.level]
            rw [if_pos (by omega)]
            unfold internalRemaining
            try dsimp only [NodeBlock.keyPtrs]
            rw [findKeyScan_eq opts (l + 1) (kp0 :: ktl) addr _ 0 rfl]
            rw [List.drop_zero, hscan]
            dsimp only
            unfold btrfs_internal_node
            rw [hcnode]
            simp only [Option.map_some']
            try dsimp only
            have hz : 0 + SK.length + 1 = SK.length + 1 := by omega
            rw [hz]
            exact hrun
          · rw [List.append_assoc]
            exact hinv3

theorem cmp_key_gt_of_gt_max {b mn mx : btrfs_disk_key}
    (h1 : cmp_key b mx = .gt) (h2 : cmp_key mn mx ≠ .gt) : cmp_key b mn = .gt := by
  rw [cmp_key_gt_iff] at h1 ⊢
  rw [cmp_key_not_gt_iff] at h2
  omega

theorem find_key_spec (fs : FsInfo) (d : Nat) (opts : NodeSearchOption)
    (root : Nat) (items : List LeafItem) (fuel : Nat)
    (hg : GoodNode fs root d items) (hsort : items.Pairwise keyLt)
    (hminmax : cmp_key opts.min_key opts.max_key ≠ .gt)
    (hfuel : d + 1 ≤ fuel) :
    (∃ b, items.head? = some b ∧ cmp_key b.item.key opts.min_key = .gt ∧
        cmp_key b.item.key opts.max_key = .gt ∧
        find_key fs opts root fuel = none) ∨
    (∃ stack Lf boff before rest,
        items = before ++ Lf ++ rest ∧ Lf ≠ [] ∧
        (∀ li ∈ before, cmp_key li.item.key opts.min_key = .lt) ∧
        (∀ li ∈ rest, cmp_key li.item.key opts.min_key = .gt) ∧
        (∀ b, Lf.head? = some b → before ≠ [] → cmp_key b.item.key opts.min_key ≠ .gt) ∧
        find_key fs opts root fuel = some (stack, ⟨.leaf Lf, boff, 0⟩) ∧
        StackInv fs d stack rest) := by
  cases hg with
  | leaf _ _ hnode2 hne =>
      right
      obtain ⟨f2, rfl⟩ : ∃ f2, fuel = f2 + 1 := ⟨fuel - 1, by omega⟩
      refine ⟨[], items, root, [], [], by simp, hne, by simp, by simp, ?_, ?_,
        StackInv.nil⟩
      · intro b _ h
        exact absurd rfl h
      · unfold find_key
        unfold btrfs_internal_node
        rw [hnode2]
        simp only [Option.map_some']
        rfl
  | internal _ _ kps childItems hnode2 hpos hne hlen hchild hhead =>
      have hforall := goodForall₂ fs _ kps childItems hlen
        (fun i h1 h2 => hchild i h1 h2) (fun i h1 h2 => hhead i h1 h2)
      rcases hforall with _ | ⟨⟨hg0, hh0⟩, hf2⟩
      · exact absurd rfl hne
      rename_i kp0 C0 ktl Ct
      obtain ⟨b0, hb0some, hb0key⟩ := head_of_rel hh0
      have hheadit : ((C0 :: Ct).flatten).head? = some b0 := by
        rw [List.flatten_cons, head?_append_left _ _ (GoodNode_ne fs _ _ _ hg0)]
        exact hb0some
      by_cases hcase : cmp_key b0.item.key opts.min_key = .gt ∧
          cmp_key b0.item.key opts.max_key = .gt
      · left
        refine ⟨b0, hheadit, hcase.1, hcase.2, ?_⟩
        obtain ⟨f2, rfl⟩ : ∃ f2, fuel = f2 + 1 := ⟨fuel - 1, by omega⟩
        unfold find_key
        unfold btrfs_internal_node
        rw [hnode2]
        simp only [Option.map_some']
        unfold findKeyLoop
        try dsimp only [NodeBlock.level]
        rw [if_pos (by omega)]
        unfold internalRemaining
        try dsimp only [NodeBlock.keyPtrs]
        rw [findKeyScan_eq opts _ (kp0 :: ktl) root _ 0 rfl]
        rw [List.drop_zero]
        have hscanout : scanL opts (kp0 :: ktl) = .out := by
          have h1 : cmp_key kp0.key opts.min_key = .gt := by
            rw [← hb0key]
            exact hcase.1
          have h2 : cmp_key kp0.key opts.max_key = .gt := by
            rw [← hb0key]
            exact hcase.2
          unfold scanL
          rw [h1, h2]
        rw [hscanout]
      · right
        have hmaxb : ∀ b, ((C0 :: Ct).flatten).head? = some b →
            cmp_key b.item.key opts.max_key ≠ .gt := by
          intro b hb
          rw [hheadit] at hb
          injection hb with hb
          subst hb
          intro hmx
          exact hcase ⟨cmp_key_gt_of_gt_max hmx hminmax, hmx⟩
        have hgood : GoodNode fs root _ ((C0 :: Ct).flatten) :=
          GoodNode.internal root _ (kp0 :: ktl) (C0 :: Ct) hnode2 hpos hne hlen hchild hhead
        obtain ⟨stack', Lf, boff, before, rest, hCL, hLfne, hbef, hrest, hbhead,
          hrun, hinv⟩ :=
          findKeyLoop_spec fs _ opts hminmax _ root ((C0 :: Ct).flatten)
            (.internal _ (kp0 :: ktl)) hgood hnode2 [] [] StackInv.nil (le_refl _)
            hsort hmaxb fuel hfuel
        refine ⟨stack', Lf, boff, before, rest, hCL, hLfne, hbef, hrest, hbhead,
          ?_, by simpa using hinv⟩
        unfold find_key
        unfold btrfs_internal_node
        rw [hnode2]
        simp only [Option.map_some']
        exact hrun

theorem inRange_of (opts : NodeSearchOption) {li : LeafItem}
    (h1 : cmp_key li.item.key opts.min_key ≠ .lt)
    (h2 : cmp_key li.item.key opts.max_key ≠ .gt) :
    inRange opts li.item.key = true := (inRange_true_iff opts _).mpr ⟨h1, h2⟩

theorem filter_nil_of_head_gt_max (opts : NodeSearchOption) {l : List LeafItem}
    (hp : l.Pairwise keyLt) {h0 : LeafItem} (hh : l.head? = some h0)
    (hmx : cmp_key h0.item.key opts.max_key = .gt) :
    l.filter (fun li => inRange opts li.item.key) = [] := by
  rw [List.filter_eq_nil_iff]
  intro a ha
  have hma := mem_head_or_keyLt hp hh ha
  have hamax : cmp_key a.item.key opts.max_key = .gt := by
    rcases hma with h | h
    · rw [h]
      exact hmx
    · exact cmp_key_gt_of_gt_of_lt hmx h
  simp only [inRange_true_iff]
  intro hcon
  exact hcon.2 hamax

theorem treeIterNext_leaf (fs : FsInfo) (fuel : Nat) (st : BtrfsTreeIter)
    (ln : BtrfsLeafNodeIter) (h : st.cur_leaf_node = some ln) :
    treeIterNext fs (fuel + 1) st =
      match leafScanLoop st.options (leafRemaining ln) ln with
      | .yieldRes y ln' => some (y, { st with cur_leaf_node := some ln' })
      | .stopScan => none
      | .exhaust =>
          match popToParent st.internal_node_stack with
          | none => none
          | some (top, rest) =>
              match descendLeftmost fs (fuel + 1) rest top with
              | none => none
              | some (stack', leaf') =>
                  treeIterNext fs fuel
                    { st with cur_leaf_node := some leaf',
                              internal_node_stack := stack' } := by
  obtain ⟨root, opts, cl, stack⟩ := st
  dsimp only at h ⊢
  subst h
  rfl

theorem treeIterNext_fresh (fs : FsInfo) (fuel : Nat) (st : BtrfsTreeIter)
    (h : st.cur_leaf_node = none) :
    treeIterNext fs (fuel + 1) st =
      match find_key fs st.options st.root (fuel + 1) with
      | none => none
      | some (path, leaf) =>
          treeIterNext fs (fuel + 1)
            { st with cur_leaf_node := some leaf, internal_node_stack := path } := by
  obtain ⟨root, opts, cl, stack⟩ := st
  dsimp only at h ⊢
  subst h
  unfold treeIterNext
  rcases hf : find_key fs opts root (fuel + 1) with _ | ⟨path, leaf⟩ <;> dsimp only

theorem iterToList_fresh (fs : FsInfo) (fuel : Nat) (st : BtrfsTreeIter)
    (path : List BtrfsInternalNodeIter) (leaf : BtrfsLeafNodeIter)
    (h : st.cur_leaf_node = none)
    (hfk : find_key fs st.options st.root (fuel + 1) = some (path, leaf)) :
    iterToList fs (fuel + 1) st =
      iterToList fs (fuel + 1)
        { st with cur_leaf_node := some leaf, internal_node_stack := path } := by
  unfold iterToList
  rw [treeIterNext_fresh fs fuel st h, hfk]

theorem scanStep (opts : NodeSearchOption)
    (hminmax : cmp_key opts.min_key opts.max_key ≠ .gt)
    (L : List LeafItem) (boff cur : Nat) (lh : LeafItem) (ltail : List LeafItem)
    (hdrop : L.drop cur = lh :: ltail)
    (hge : cmp_key lh.item.key opts.min_key ≠ .lt) :
    leafScanLoop opts (leafRemaining ⟨.leaf L, boff, cur⟩) ⟨.leaf L, boff, cur⟩ =
      if cmp_key lh.item.key opts.max_key = .gt then .stopScan
      else .yieldRes ⟨lh.item, lh.data, boff, cur⟩ ⟨.leaf L, boff, cur + 1⟩ := by
  have hrem : leafRemaining ⟨.leaf L, boff, cur⟩ = L.length - cur := rfl
  rw [hrem]
  rw [leafScanLoop_eq opts L boff (L.length - cur) cur rfl]
  rw [hdrop]
  rcases hc : cmp_key lh.item.key opts.min_key with _ | _ | _
  · exact absurd hc hge
  · rw [leafScanL_head_eq opts lh ltail hc]
    rw [if_neg (cmp_key_not_gt_of_eq_of_not_gt hc hminmax)]
    rfl
  · rw [leafScanL_head_gt opts lh ltail hc]
    by_cases hmx : cmp_key lh.item.key opts.max_key = .gt
    · rw [if_pos hmx, if_pos hmx]
    · rw [if_neg hmx, if_neg hmx]
      rfl

theorem iterRun (fs : FsInfo) (d root : Nat) (opts : NodeSearchOption)
    (hminmax : cmp_key opts.min_key opts.max_key ≠ .gt) :
    ∀ fuel (L : List LeafItem) (boff cur : Nat)
      (stack : List BtrfsInternalNodeIter) (rest : List LeafItem),
      StackInv fs d stack rest →
      (L.drop cur ++ rest).Pairwise keyLt →
      (∀ li ∈ L.drop cur ++ rest, cmp_key li.item.key opts.min_key ≠ .lt) →
      (L.drop cur ++ rest).length + d + 3 ≤ fuel →
      (iterToList fs fuel ⟨root, opts, some ⟨.leaf L, boff, cur⟩, stack⟩).map toLeafItem =
        (L.drop cur ++ rest).filter (fun li => inRange opts li.item.key) := by
  intro fuel
  induction fuel using Nat.strong_induction_on with
  | _ fuel ih =>
    intro L boff cur stack rest hinv hsort hge hfuel
    obtain ⟨f1, rfl⟩ : ∃ f1, fuel = f1 + 1 := ⟨fuel - 1, by omega⟩
    rcases hdrop : L.drop cur with _ | ⟨lh, ltail⟩
    · -- current leaf exhausted
      have hlen0 : L.length - cur = 0 := by
        have hl := congrArg List.length hdrop
        rw [List.length_drop] at hl
        simpa using hl
      have hrem0 : leafRemaining ⟨.leaf L, boff, cur⟩ = 0 := hlen0
      by_cases hrn : rest = []
      · subst hrn
        have hpop : popToParent stack = none :=
          popToParent_none_of_nil fs d stack [] hinv rfl
        unfold iterToList
        rw [treeIterNext_leaf fs f1 _ ⟨.leaf L, boff, cur⟩ rfl]
        rw [hrem0]
        dsimp only [leafScanLoop]
        rw [hpop]
        simp
      · obtain ⟨f2, rfl⟩ : ∃ f2, f1 = f2 + 1 := by
          refine ⟨f1 - 1, ?_⟩
          rcases rest with _ | ⟨r0, rtl⟩
          · exact absurd rfl hrn
          · simp at hfuel
            omega
        obtain ⟨top, stack2, stack', Lf, boff', rest', hpop, hsplit, hLfne, hdesc,
          hinv'⟩ := stack_next_leaf fs d stack rest hinv hrn (f2 + 1 + 1) (by
            rcases rest with _ | ⟨r0, rtl⟩
            · exact absurd rfl hrn
            · simp at hfuel
              omega)
        rcases Lf with _ | ⟨h0, Ltl⟩
        · exact absurd rfl hLfne
        have hrsort : ((h0 :: Ltl) ++ rest').Pairwise keyLt := by
          rw [← hsplit]
          rw [hdrop] at hsort
          simpa using hsort
        have hmem0 : h0 ∈ L.drop cur ++ rest := by
          rw [hdrop, hsplit]
          simp
        have hge0 : cmp_key h0.item.key opts.min_key ≠ .lt := hge h0 hmem0
        have hstep := scanStep opts hminmax (h0 :: Ltl) boff' 0 h0 Ltl rfl hge0
        unfold iterToList
        rw [treeIterNext_leaf fs (f2 + 1) _ ⟨.leaf L, boff, cur⟩ rfl]
        rw [hrem0]
        dsimp only [leafScanLoop]
        rw [hpop]
        dsimp only
        rw [hdesc]
        dsimp only
        rw [treeIterNext_leaf fs f2 _ ⟨.leaf (h0 :: Ltl), boff', 0⟩ rfl]
        rw [hstep]
        by_cases hmx : cmp_key h0.item.key opts.max_key = .gt
        · rw [if_pos hmx]
          dsimp only
          rw [hsplit]
          simp only [List.nil_append]
          rw [filter_nil_of_head_gt_max opts hrsort (by rw [List.cons_append]; rfl) hmx]
          rfl
        · rw [if_neg hmx]
          dsimp only
          simp only [List.map_cons]
          have hgenew : ∀ li ∈ (h0 :: Ltl).drop 1 ++ rest',
              cmp_key li.item.key opts.min_key ≠ .lt := by
            intro li hli
            apply hge
            rw [hdrop, hsplit]
            simp only [List.drop_succ_cons, List.drop_zero] at hli
            simp only [List.nil_append, List.cons_append]
            rcases List.mem_append.mp hli with h | h
            · exact List.mem_cons_of_mem _ (List.mem_append.mpr (Or.inl h))
            · exact List.mem_cons_of_mem _ (List.mem_append.mpr (Or.inr h))
          have hsortnew : ((h0 :: Ltl).drop 1 ++ rest').Pairwise keyLt := by
            simp only [List.drop_succ_cons, List.drop_zero]
            rw [List.cons_append] at hrsort
            exact (List.pairwise_cons.mp hrsort).2
          have hfuelnew : ((h0 :: Ltl).drop 1 ++ rest').length + d + 3 ≤ f2 + 1 := by
            rw [hdrop, hsplit] at hfuel
            simp only [List.drop_succ_cons, List.drop_zero, List.length_append]
            simp only [List.nil_append, List.cons_append, List.length_cons,
              List.length_append] at hfuel
            omega
          simp only [Nat.zero_add]
          rw [ih (f2 + 1) (by omega) (h0 :: Ltl) boff' 1 stack' rest' hinv'
            hsortnew hgenew hfuelnew]
          rw [hsplit, List.nil_append, List.cons_append]
          have hfc : ((h0 :: (Ltl ++ rest')).filter
                (fun li => inRange opts li.item.key)) =
              h0 :: ((Ltl ++ rest').filter (fun li => inRange opts li.item.key)) := by
            simp [List.filter_cons, inRange_of opts hge0 hmx]
          rw [hfc]
          simp only [List.drop_succ_cons, List.drop_zero]
          rfl
    · -- an item remains in the current leaf
      have hge0 : cmp_key lh.item.key opts.min_key ≠ .lt := by
        apply hge
        rw [hdrop]
        simp
      have hstep := scanStep opts hminmax L boff cur lh ltail hdrop hge0
      have hsort2 : ((lh :: ltail) ++ rest).Pairwise keyLt := by
        rw [← hdrop]
        exact hsort
      unfold iterToList
      rw [treeIterNext_leaf fs f1 _ ⟨.leaf L, boff, cur⟩ rfl]
      rw [hstep]
      by_cases hmx : cmp_key lh.item.key opts.max_key = .gt
      · rw [if_pos hmx]
        dsimp only
        rw [filter_nil_of_head_gt_max opts hsort2 (by rw [List.cons_append]; rfl) hmx]
        rfl
      · rw [if_neg hmx]
        dsimp only
        simp only [List.map_cons]
        have hdrop' : L.drop (cur + 1) = ltail := by
          rw [← List.tail_drop, hdrop]
          rfl
        have hgenew : ∀ li ∈ L.drop (cur + 1) ++ rest,
            cmp_key li.item.key opts.min_key ≠ .lt := by
          intro li hli
          apply hge
          rw [hdrop]
          rw [hdrop'] at hli
          rw [List.cons_append]
          exact List.mem_cons_of_mem _ hli
        have hsortnew : (L.drop (cur + 1) ++ rest).Pairwise keyLt := by
          rw [hdrop']
          rw [List.cons_append] at hsort2
          exact (List.pairwise_cons.mp hsort2).2
        have hfuelnew : (L.drop (cur + 1) ++ rest).length + d + 3 ≤ f1 := by
          rw [hdrop']
          rw [hdrop] at hfuel
          simp only [List.cons_append, List.length_cons, List.length_append] at hfuel ⊢
          omega
        rw [ih f1 (by omega) L boff (cur + 1) stack rest hinv hsortnew hgenew hfuelnew]
        rw [hdrop', List.cons_append]
        have hfc : ((lh :: (ltail ++ rest)).filter
              (fun li => inRange opts li.item.key)) =
            lh :: ((ltail ++ rest).filter (fun li => inRange opts li.item.key)) := by
          simp [List.filter_cons, inRange_of opts hge0 hmx]
        rw [hfc]
        rfl

theorem cmp_key_gt_of_ge_of_lt {a b m : btrfs_disk_key}
    (h1 : cmp_key a m ≠ .lt) (h2 : cmp_key a b = .lt) : cmp_key b m = .gt := by
  rw [cmp_key_not_lt_iff] at h1
  rw [cmp_key_lt_iff] at h2
  rw [cmp_key_gt_iff]
  omega

theorem all_ge_of_head_ge (opts : NodeSearchOption) {l : List LeafItem}
    (hp : l.Pairwise keyLt) {h0 : LeafItem} (hh : l.head? = some h0)
    (hge0 : cmp_key h0.item.key opts.min_key ≠ .lt) :
    ∀ li ∈ l, cmp_key li.item.key opts.min_key ≠ .lt := by
  intro li hm
  rcases mem_head_or_keyLt hp hh hm with h | h
  · rw [h]
    exact hge0
  · rw [cmp_key_gt_of_ge_of_lt hge0 h]
    decide

theorem filter_nil_of_all_lt (opts : NodeSearchOption) {l : List LeafItem}
    (h : ∀ li ∈ l, cmp_key li.item.key opts.min_key = .lt) :
    l.filter (fun li => inRange opts li.item.key) = [] := by
  rw [List.filter_eq_nil_iff]
  intro a ha
  simp only [inRange_true_iff]
  intro hcon
  exact hcon.1 (h a ha)

theorem predPart_nil_of_head (opts : NodeSearchOption) {l : List LeafItem}
    {h0 : LeafItem} (hh : l.head? = some h0)
    (h : cmp_key h0.item.key opts.min_key ≠ .lt) : predPart opts l = [] := by
  rcases l with _ | ⟨a, t⟩
  · exact Option.noConfusion hh
  injection hh with hh
  subst hh
  unfold predPart
  rw [List.takeWhile_cons_of_neg (by rw [belowMin_true_iff]; exact h)]
  rfl

theorem predPart_nil_parts (opts : NodeSearchOption) (before B : List LeafItem)
    {b : LeafItem} (hbef : ∀ li ∈ before, belowMin opts li = true)
    (hB : B.head? = some b) (hnb : cmp_key b.item.key opts.min_key ≠ .gt)
    (hnbl : ¬ belowMin opts b = true) :
    predPart opts (before ++ B) = [] := by
  unfold predPart
  rw [takeWhile_append_all _ _ _ hbef, dropWhile_append_all _ _ _ hbef]
  rcases B with _ | ⟨b0, Bt⟩
  · exact Option.noConfusion hB
  injection hB with hB
  subst hB
  rw [List.takeWhile_cons_of_neg hnbl, List.dropWhile_cons_of_neg hnbl]
  rw [List.append_nil]
  rcases hgl : before.getLast? with _ | p
  · rfl
  · dsimp only
    rw [List.head?_cons]
    simp [hnb]

theorem predPart_pred (opts : NodeSearchOption) (P RestPart : List LeafItem)
    (hP : P ≠ []) (hbel : ∀ li ∈ P, belowMin opts li = true)
    (hR : ∀ b, RestPart.head? = some b → cmp_key b.item.key opts.min_key = .gt) :
    predPart opts (P ++ RestPart) = [P.getLast hP] := by
  unfold predPart
  rw [takeWhile_append_all _ _ _ hbel, dropWhile_append_all _ _ _ hbel]
  rcases RestPart with _ | ⟨r0, rtl⟩
  · simp only [List.takeWhile_nil, List.dropWhile_nil, List.append_nil]
    rw [List.getLast?_eq_getLast P hP]
    rfl
  · have hr0 : cmp_key r0.item.key opts.min_key = .gt := hR r0 rfl
    have hr0n : ¬ belowMin opts r0 = true := by
      rw [belowMin_true_iff, hr0]
      decide
    rw [List.takeWhile_cons_of_neg hr0n, List.dropWhile_cons_of_neg hr0n]
    rw [List.append_nil]
    rw [List.getLast?_eq_getLast P hP]
    dsimp only
    rw [List.head?_cons]
    simp [hr0]

theorem getLast_append_ne {α : Type} (l₁ l₂ : List α) (h : l₂ ≠ [])
    (hh : l₁ ++ l₂ ≠ []) : (l₁ ++ l₂).getLast hh = l₂.getLast h := by
  have hx := List.getLast?_append_of_ne_nil l₁ h
  rw [List.getLast?_eq_getLast _ hh, List.getLast?_eq_getLast _ h] at hx
  exact Option.some.inj hx

theorem iterFirstYield (fs : FsInfo) (root F : Nat) (opts : NodeSearchOption)
    (Lf : List LeafItem) (boff : Nat) (stack : List BtrfsInternalNodeIter)
    (k : Nat) (y : LeafItem) (hscan : leafScanL opts Lf = .yld k y) :
    iterToList fs (F + 1) ⟨root, opts, some ⟨.leaf Lf, boff, 0⟩, stack⟩ =
      ⟨y.item, y.data, boff, k⟩ ::
        iterToList fs F ⟨root, opts, some ⟨.leaf Lf, boff, k + 1⟩, stack⟩ := by
  conv_lhs => unfold iterToList
  rw [treeIterNext_leaf fs F _ ⟨.leaf Lf, boff, 0⟩ rfl]
  have hrem : leafRemaining ⟨.leaf Lf, boff, 0⟩ = Lf.length - 0 := rfl
  rw [hrem, leafScanLoop_eq opts Lf boff (Lf.length - 0) 0 rfl, List.drop_zero, hscan]
  dsimp only
  simp only [Nat.zero_add]

/-- C1 amended: over a well-formed tree (GoodNode) with strictly ascending
leaf keys and min_key ≤ max_key, draining BtrfsTreeIter yields exactly the
items whose keys lie in [min_key, max_key], in ascending order, each once —
except that when min_key itself is absent at the landing point the iterator
first yields one extra predecessor item below min_key (the last item before
the range), per the implicit min_match = Less policy; predPart captures that
predecessor and is empty exactly when no such extra yield happens.  The
original claim C1 (no item outside the range is ever yielded) is refuted by
claim_C1_counterexample and corrected by the predPart term here. -/
theorem claim_C1_theorem (fs : FsInfo) (root d : Nat) (opts : NodeSearchOption)
    (items : List LeafItem) (fuel : Nat)
    (hg : GoodNode fs root d items)
    (hsort : items.Pairwise keyLt)
    (hminmax : cmp_key opts.min_key opts.max_key ≠ .gt)
    (hfuel : treeFuel items d ≤ fuel) :
    (iterToList fs fuel (BtrfsTreeIter.mk0 root opts)).map toLeafItem =
      predPart opts items ++ items.filter (fun li => inRange opts li.item.key) := by
  obtain ⟨F, rfl⟩ : ∃ F, fuel = F + 1 := ⟨fuel - 1, by unfold treeFuel at hfuel; omega⟩
  have hfuelF : d + 1 ≤ F + 1 := by unfold treeFuel at hfuel; omega
  rcases find_key_spec fs d opts root items (F + 1) hg hsort hminmax hfuelF with
    ⟨b, hb, hbmin, hbmax, hfk⟩ |
    ⟨stack, Lf, boff, before, rest, hsplit, hLfne, hbef, hrest, hbhead, hfk, hinv⟩
  · conv_lhs => unfold iterToList
    rw [treeIterNext_fresh fs F _ rfl]
    dsimp only [BtrfsTreeIter.mk0]
    rw [hfk]
    dsimp only
    rw [predPart_nil_of_head opts hb (by rw [hbmin]; decide)]
    rw [filter_nil_of_head_gt_max opts hsort hb hbmax]
    rfl
  · rcases Lf with _ | ⟨h0, Ltl⟩
    · exact absurd rfl hLfne
    rw [iterToList_fresh fs F _ stack ⟨.leaf (h0 :: Ltl), boff, 0⟩ rfl hfk]
    show (iterToList fs (F + 1)
        ⟨root, opts, some ⟨.leaf (h0 :: Ltl), boff, 0⟩, stack⟩).map toLeafItem = _
    have hsortLR : ((h0 :: Ltl) ++ rest).Pairwise keyLt := by
      rw [hsplit, List.append_assoc] at hsort
      exact (List.pairwise_append.mp hsort).2.1
    have hbefB : ∀ li ∈ before, belowMin opts li = true := by
      intro li h
      rw [belowMin_true_iff]
      exact hbef li h
    have hrestge : ∀ li ∈ rest, cmp_key li.item.key opts.min_key ≠ .lt := by
      intro li h
      rw [hrest li h]
      decide
    have hfuelsz : ((h0 :: Ltl) ++ rest).length + d + 3 ≤ F := by
      unfold treeFuel at hfuel
      rw [hsplit] at hfuel
      simp only [List.length_append, List.length_cons] at hfuel ⊢
      omega
    rcases hc : cmp_key h0.item.key opts.min_key with _ | _ | _
    · -- the landing leaf starts below min_key
      have hbm0 : belowMin opts h0 = true := by
        rw [belowMin_true_iff]
        exact hc
      obtain ⟨A, hAdef⟩ : ∃ A, (h0 :: Ltl).takeWhile (belowMin opts) = A := ⟨_, rfl⟩
      obtain ⟨B, hBdef⟩ : ∃ B, (h0 :: Ltl).dropWhile (belowMin opts) = B := ⟨_, rfl⟩
      have hAne : A ≠ [] := by
        rw [← hAdef, List.takeWhile_cons_of_pos hbm0]
        simp
      have hAall : ∀ li ∈ A, cmp_key li.item.key opts.min_key = .lt := by
        intro li h
        rw [← belowMin_true_iff]
        rw [← hAdef] at h
        exact List.mem_takeWhile_imp h
      have hAdec : A ++ B = h0 :: Ltl := by
        rw [← hAdef, ← hBdef]
        exact List.takeWhile_append_dropWhile _ _
      have hallbefA : ∀ li ∈ before ++ A, cmp_key li.item.key opts.min_key = .lt := by
        intro li h
        rcases List.mem_append.mp h with h | h
        · exact hbef li h
        · exact hAall li h
      have hbelP : ∀ li ∈ before ++ A, belowMin opts li = true := by
        intro li h
        rw [belowMin_true_iff]
        exact hallbefA li h
      have hdropA : (h0 :: Ltl).drop A.length = B := by
        conv_lhs => rw [← hAdec]
        rw [List.drop_left]
      have hitemsplit : items = (before ++ A) ++ (B ++ rest) := by
        rw [hsplit]
        conv_lhs => rw [← hAdec]
        simp [List.append_assoc]
      rcases B with _ | ⟨b, Btl⟩
      · -- the whole landing leaf is below min_key: yield its last item
        have hAeq : A = h0 :: Ltl := by
          rw [List.append_nil] at hAdec
          exact hAdec
        have hLfall : ∀ li ∈ (h0 :: Ltl), cmp_key li.item.key opts.min_key = .lt := by
          intro li h
          apply hAall
          rw [hAeq]
          exact h
        have hscan := leafScanL_all_lt opts (h0 :: Ltl) (by simp) hLfall
        rw [iterFirstYield fs root F opts (h0 :: Ltl) boff stack _ _ hscan]
        simp only [List.map_cons]
        have hkk : (h0 :: Ltl).length - 1 + 1 = (h0 :: Ltl).length := by simp
        rw [hkk]
        have hrunsort : ((h0 :: Ltl).drop (h0 :: Ltl).length ++ rest).Pairwise
            keyLt := by
          rw [List.drop_length, List.nil_append]
          exact (List.pairwise_append.mp hsortLR).2.1
        have hrunge : ∀ li ∈ (h0 :: Ltl).drop (h0 :: Ltl).length ++ rest,
            cmp_key li.item.key opts.min_key ≠ .lt := by
          intro li h
          rw [List.drop_length, List.nil_append] at h
          exact hrestge li h
        have hrunfuel : ((h0 :: Ltl).drop (h0 :: Ltl).length ++ rest).length + d + 3
            ≤ F := by
          rw [List.drop_length, List.nil_append]
          simp only [List.length_append, List.length_cons] at hfuelsz ⊢
          omega
        rw [iterRun fs d root opts hminmax F (h0 :: Ltl) boff (h0 :: Ltl).length
          stack rest hinv hrunsort hrunge hrunfuel]
        rw [List.drop_length, List.nil_append]
        rw [hsplit]
        have hPne : before ++ (h0 :: Ltl) ≠ [] := by simp
        have hallP : ∀ li ∈ before ++ (h0 :: Ltl),
            cmp_key li.item.key opts.min_key = .lt := by
          intro li h
          rcases List.mem_append.mp h with h | h
          · exact hbef li h
          · exact hLfall li h
        have hbelP2 : ∀ li ∈ before ++ (h0 :: Ltl), belowMin opts li = true := by
          intro li h
          rw [belowMin_true_iff]
          exact hallP li h
        have hRrest : ∀ x, rest.head? = some x →
            cmp_key x.item.key opts.min_key = .gt :=
          fun x hx => hrest x (mem_of_head? hx)
        rw [predPart_pred opts (before ++ (h0 :: Ltl)) rest hPne hbelP2 hRrest]
        rw [List.filter_append, filter_nil_of_all_lt opts hallP, List.nil_append]
        rw [getLast_append_ne before (h0 :: Ltl) (by simp) hPne]
        rfl
      · -- the landing leaf reaches an item b with min_key ≤ key(b)
        have hBb : ¬ belowMin opts b = true := by
          apply head?_dropWhile_not (belowMin opts) (h0 :: Ltl)
          rw [hBdef]
          rfl
        rcases hcb : cmp_key b.item.key opts.min_key with _ | _ | _
        · exact absurd (by rw [belowMin_true_iff]; exact hcb) hBb
        · -- b is exactly min_key: no predecessor is emitted
          have hscan := (leafScanL_mixed opts A hAne (b :: Btl) b hAall rfl).2 hcb
          rw [hAdec] at hscan
          rw [iterFirstYield fs root F opts (h0 :: Ltl) boff stack _ _ hscan]
          simp only [List.map_cons]
          have hdropA1 : (h0 :: Ltl).drop (A.length + 1) = Btl := by
            rw [← List.drop_drop, hdropA]
            simp
          have hsortB : ((b :: Btl) ++ rest).Pairwise keyLt := by
            refine hsortLR.sublist ?_
            conv_rhs => rw [← hAdec]
            exact (List.sublist_append_right _ _).append_right rest
          have hsortb : (b :: (Btl ++ rest)).Pairwise keyLt := by
            rw [List.cons_append] at hsortB
            exact hsortB
          have hrunsort : ((h0 :: Ltl).drop (A.length + 1) ++ rest).Pairwise
              keyLt := by
            rw [hdropA1]
            exact (List.pairwise_cons.mp hsortb).2
          have hrunge : ∀ li ∈ (h0 :: Ltl).drop (A.length + 1) ++ rest,
              cmp_key li.item.key opts.min_key ≠ .lt := by
            rw [hdropA1]
            intro li h
            rcases List.mem_append.mp h with h | h
            · rw [cmp_key_gt_of_eq_of_lt hcb ((List.pairwise_cons.mp hsortb).1 li
                (List.mem_append.mpr (Or.inl h)))]
              decide
            · exact hrestge li h
          have hlenB : A.length + Btl.length + 1 = Ltl.length + 1 := by
            have hx := congrArg List.length hAdec
            simp only [List.length_append, List.length_cons] at hx
            omega
          have hrunfuel : ((h0 :: Ltl).drop (A.length + 1) ++ rest).length + d + 3
              ≤ F := by
            rw [hdropA1]
            simp only [List.length_append, List.length_cons] at hfuelsz ⊢
            omega
          rw [iterRun fs d root opts hminmax F (h0 :: Ltl) boff (A.length + 1)
            stack rest hinv hrunsort hrunge hrunfuel]
          rw [hdropA1]
          rw [hitemsplit]
          rw [predPart_nil_parts opts (before ++ A) ((b :: Btl) ++ rest) hbelP
            (by rw [List.cons_append]; rfl) (by rw [hcb]; decide) hBb]
          rw [List.nil_append]
          have hbin : inRange opts b.item.key = true :=
            inRange_of opts (by rw [hcb]; decide)
              (cmp_key_not_gt_of_eq_of_not_gt hcb hminmax)
          have hfc : ((b :: (Btl ++ rest)).filter
                (fun li => inRange opts li.item.key)) =
              b :: ((Btl ++ rest).filter (fun li => inRange opts li.item.key)) := by
            simp [List.filter_cons, hbin]
          have hfs : (((before ++ A) ++ ((b :: Btl) ++ rest)).filter
                (fun li => inRange opts li.item.key)) =
              b :: ((Btl ++ rest).filter (fun li => inRange opts li.item.key)) := by
            rw [List.filter_append, filter_nil_of_all_lt opts hallbefA,
              List.nil_append, List.cons_append, hfc]
          rw [hfs]
          rfl
        · -- key(b) is beyond min_key: the last below-min item is the predecessor
          have hscan := (leafScanL_mixed opts A hAne (b :: Btl) b hAall rfl).1 hcb
          rw [hAdec] at hscan
          rw [iterFirstYield fs root F opts (h0 :: Ltl) boff stack _ _ hscan]
          simp only [List.map_cons]
          have hkk : A.length - 1 + 1 = A.length := by
            have := List.length_pos.mpr hAne
            omega
          rw [hkk]
          have hsortB : ((b :: Btl) ++ rest).Pairwise keyLt := by
            refine hsortLR.sublist ?_
            conv_rhs => rw [← hAdec]
            exact (List.sublist_append_right _ _).append_right rest
          have hheadB : ((b :: Btl) ++ rest).head? = some b := by
            rw [List.cons_append]
            rfl
          have hrunsort : ((h0 :: Ltl).drop A.length ++ rest).Pairwise keyLt := by
            rw [hdropA]
            exact hsortB
          have hrunge : ∀ li ∈ (h0 :: Ltl).drop A.length ++ rest,
              cmp_key li.item.key opts.min_key ≠ .lt := by
            rw [hdropA]
            intro li h
            rw [all_gt_of_head_gt hsortB hheadB hcb li h]
            decide
          have hlenB : A.length + Btl.length + 1 = Ltl.length + 1 := by
            have hx := congrArg List.length hAdec
            simp only [List.length_append, List.length_cons] at hx
            omega
          have hrunfuel : ((h0 :: Ltl).drop A.length ++ rest).length + d + 3
              ≤ F := by
            rw [hdropA]
            simp only [List.length_append, List.length_cons] at hfuelsz ⊢
            omega
          rw [iterRun fs d root opts hminmax F (h0 :: Ltl) boff A.length
            stack rest hinv hrunsort hrunge hrunfuel]
          rw [hdropA]
          rw [hitemsplit]
          have hPne : before ++ A ≠ [] := by
            intro hx
            exact hAne (List.append_eq_nil.mp hx).2
          have hRrest : ∀ x, ((b :: Btl) ++ rest).head? = some x →
              cmp_key x.item.key opts.min_key = .gt := by
            intro x hx
            rw [hheadB] at hx
            injection hx with hx
            rw [← hx]
            exact hcb
          rw [predPart_pred opts (before ++ A) ((b :: Btl) ++ rest) hPne hbelP hRrest]
          have hfs : (((before ++ A) ++ ((b :: Btl) ++ rest)).filter
                (fun li => inRange opts li.item.key)) =
              ((b :: Btl) ++ rest).filter (fun li => inRange opts li.item.key) := by
            rw [List.filter_append, filter_nil_of_all_lt opts hallbefA,
              List.nil_append]
          rw [hfs]
          rw [getLast_append_ne before A hAne hPne]
          rfl
    · -- the landing leaf starts exactly at min_key
      have hrunge : ∀ li ∈ (h0 :: Ltl) ++ rest,
          cmp_key li.item.key opts.min_key ≠ .lt := by
        intro li h
        rcases List.mem_append.mp h with h | h
        · exact all_ge_of_head_ge opts (List.pairwise_append.mp hsortLR).1 rfl
            (by rw [hc]; decide) li h
        · exact hrestge li h
      have hrunfuel : ((h0 :: Ltl) ++ rest).length + d + 3 ≤ F + 1 := by
        simp only [List.length_append, List.length_cons] at hfuelsz ⊢
        omega
      rw [iterRun fs d root opts hminmax (F + 1) (h0 :: Ltl) boff 0 stack rest hinv
        hsortLR hrunge hrunfuel]
      simp only [List.drop_zero]
      rw [hsplit]
      simp only [List.append_assoc]
      rw [predPart_nil_parts opts before ((h0 :: Ltl) ++ rest) hbefB
        (by rw [List.cons_append]; rfl) (by rw [hc]; decide)
        (by rw [belowMin_true_iff, hc]; decide)]
      rw [List.nil_append]
      have hfs : ((before ++ ((h0 :: Ltl) ++ rest)).filter
            (fun li => inRange opts li.item.key)) =
          ((h0 :: Ltl) ++ rest).filter (fun li => inRange opts li.item.key) := by
        rw [List.filter_append, filter_nil_of_all_lt opts hbef, List.nil_append]
      rw [hfs]
    · -- the landing leaf starts beyond min_key: nothing was skipped
      have hbni : before = [] := by
        rcases hbx : before with _ | ⟨x, xs⟩
        · rfl
        · exact absurd hc (hbhead h0 rfl (by rw [hbx]; simp))
      subst hbni
      simp only [List.nil_append] at hsplit
      have hrunge : ∀ li ∈ (h0 :: Ltl) ++ rest,
          cmp_key li.item.key opts.min_key ≠ .lt := by
        intro li h
        rcases List.mem_append.mp h with h | h
        · exact all_ge_of_head_ge opts (List.pairwise_append.mp hsortLR).1 rfl
            (by rw [hc]; decide) li h
        · exact hrestge li h
      have hrunfuel : ((h0 :: Ltl) ++ rest).length + d + 3 ≤ F + 1 := by
        simp only [List.length_append, List.length_cons] at hfuelsz ⊢
        omega
      rw [iterRun fs d root opts hminmax (F + 1) (h0 :: Ltl) boff 0 stack rest hinv
        hsortLR hrunge hrunfuel]
      simp only [List.drop_zero]
      rw [hsplit]
      rw [predPart_nil_of_head opts (by rw [List.cons_append]; rfl)
        (by rw [hc]; decide)]
      rw [List.nil_append]

/-- C1 witness: on the one-leaf tree exFs1, searching the closed range
(2,5,0)..(3,5,0) drains to exactly predPart ++ filter — here the single
predecessor item with key (1,5,1) and an empty in-range part. -/
theorem claim_C1_witness :
    (iterToList exFs1 10 (BtrfsTreeIter.mk0 100 exOpts)).map toLeafItem =
      predPart exOpts [exLeafItem] ++
        [exLeafItem].filter (fun li => inRange exOpts li.item.key) :=
  claim_C1_theorem exFs1 100 0 exOpts [exLeafItem] 10
    (GoodNode.leaf 100 [exLeafItem] rfl (by simp))
    (by simp)
    (by decide)
    (by decide)

set_option maxRecDepth 100000 in
/-- C4 witness: zeroing everything outside the primary region of exDev4
(in particular the whole generation-102 mirror superblock) leaves the
result of load_sb unchanged. -/
theorem claim_C4_witness : load_sb exDev4 = load_sb exDev4Primary :=
  claim_C4_theorem exDev4 exDev4Primary rfl (fun i hi => by
    show exDev4Byte (BTRFS_SUPER_INFO_OFFSET + i) =
      (if BTRFS_SUPER_INFO_OFFSET + i < 69632 then exDev4Byte (BTRFS_SUPER_INFO_OFFSET + i)
       else 0)
    rw [if_pos (by
      unfold BTRFS_SUPER_INFO_OFFSET
      unfold BTRFS_SUPER_INFO_SIZE at hi
      omega)])

end DumpBtrfs
